import Mathlib

/-!
Verification of the GTG task core (`GTG/core/task.py`).

The development shallowly embeds the task model of the source file:

* `Date` models the external `GTG.core.dates.Date` value used by `task.py`
  (that class is not part of the sources; it is modelled from the spec:
  three states no-date / fuzzy / concrete, totally ordered, with `is_fuzzy`
  true exactly on the non-concrete states, matching the comment block above
  `Task.set_due_date`).
* the tag/content layer (`tag_added`, `add_tag`, `remove_tag`, `strip_tag`)
  is embedded for a single task: the child recursion of those methods only
  mutates other task objects, never the fields of `self`, so the single-task
  fragment is faithful for properties about the task's own `content`/`tags`.
* `get_excerpt` is embedded over `String`.
* `set_recurring` is embedded for a task with no children (the child loop of
  the source only mutates children); the external
  `Date.parse_from_date` validation is abstracted as an oracle parameter
  `parse` (it lives in `dates.py`, outside the sources).
* `get_next_occurrence` is embedded with the advancing step
  `parse_from_date` abstracted as a function on concrete dates and an
  explicit fuel bound for the `while` loops.
* `set_status` and `set_due_date` are embedded over a multi-task state: a
  fixed tree structure `TaskGraph` (parent/child id lists; the liblarch
  collaborator owns this structure and `set_status`/`set_due_date` never
  change it) plus per-task mutable fields.  Recursion through the tree is
  modelled with fuel; a call that runs out of fuel returns `none`, and all
  theorems are stated about completed (`some`) runs.
-/

namespace GTG

/-- Modelled from the spec: the `Date` value type of `GTG.core.dates`
(not among the sources).  Three states: no-date, fuzzy (now/soon/someday,
indexed), concrete calendar date (day number).  `is_fuzzy` is true on
no-date and fuzzy values: the comment block above `Task.set_due_date`
equates `not new_duedate_obj.is_fuzzy()` with "not fuzzy nor undefined". -/
inductive Date where
  | nodate : Date
  | fuzzy : Nat → Date
  | concrete : Nat → Date
deriving DecidableEq

/-- `Date.is_fuzzy()`: true for no-date and fuzzy values, false for
concrete calendar dates. -/
def Date.is_fuzzy : Date → Bool
  | .concrete _ => false
  | _ => true

/-- Modelled from the spec: the total order on `Date`.  Concrete dates are
ordered by day; no-date and fuzzy values compare as "infinitely late"
(later than every concrete date). -/
def Date.blt : Date → Date → Bool
  | .concrete n, .concrete m => n < m
  | .concrete _, .fuzzy _ => true
  | .concrete _, .nodate => true
  | .fuzzy _, .concrete _ => false
  | .fuzzy k, .fuzzy j => k < j
  | .fuzzy _, .nodate => true
  | .nodate, _ => false

/-! ## Tag/content layer (`Task.tag_added`, `add_tag`, `remove_tag`,
`Task._strip_tag`), single-task fragment.

`tag_added` also recurses into deletable subtasks and touches the tag
registry; neither mutates the task's own `content`/`tags`, so they are
outside this fragment.  `remove_tag` notifies the registry exactly when the
structured set contained the tag; the boolean returned by the embedded
`remove_tag` records that notification. -/

/-- One task's tag-relevant fields. -/
structure TagTask where
  content : String
  tags : List String
deriving DecidableEq

/-- Python `str.replace(pat, rep)` on character lists: replace every
non-overlapping occurrence, scanning left to right.  The fuel is the
length of the scanned list, which every step consumes at least one
character of, so it never runs out at the wrapper below. -/
def pyReplaceFuel (pat rep : List Char) : Nat → List Char → List Char
  | 0, l => l
  | _+1, [] => []
  | f+1, c :: cs =>
    if pat.isPrefixOf (c :: cs) then
      rep ++ pyReplaceFuel pat rep f (List.drop pat.length (c :: cs))
    else c :: pyReplaceFuel pat rep f cs

/-- Python `str.replace` (the call sites never pass an empty pattern). -/
def pyReplace (l pat rep : List Char) : List Char :=
  if pat = [] then l else pyReplaceFuel pat rep l.length l

/-- `html.escape(tagname)` as applied by `add_tag` (quote=True default). -/
def htmlEscapeL (s : List Char) : List Char :=
  s.flatMap fun c =>
    if c = '&' then "&amp;".data
    else if c = '<' then "&lt;".data
    else if c = '>' then "&gt;".data
    else if c = '\"' then "&quot;".data
    else if c = '\x27' then "&#x27;".data
    else [c]

/-- `Task.tag_added` restricted to the task's own fields: appends the tag
name to `tags` when absent; returns whether it was added. -/
def tag_added (tagname : String) (t : TagTask) : Bool × TagTask :=
  if tagname ∈ t.tags then (false, t)
  else (true, { t with tags := t.tags ++ [tagname] })

/-- `Task.add_tag`: structured add via `tag_added`, then insert the literal
`@tag` marker into `content` with the separator rule of the source:
no separator on empty content, `", "` when content starts with `'@'`,
otherwise a blank line. -/
def add_tag (tagname : String) (t : TagTask) : TagTask :=
  match tag_added tagname t with
  | (false, t') => t'
  | (true, t') =>
    let c := t'.content.data
    let tagE := htmlEscapeL tagname.data
    let tagE := if tagE.head? = some '@' then tagE else '@' :: tagE
    let sep : List Char :=
      if c = [] then []
      else if c.head? = some '@' then [',', ' ']
      else ['\n', '\n']
    { t' with content := String.mk (tagE ++ sep ++ c) }

/-- `Task._strip_tag`: the chain of literal replacements, in source order;
`newtag` is `''` at every call site of interest (the source default). -/
def strip_tag (text tagname newtag : String) : String :=
  let tg := tagname.data
  let nt := newtag.data
  let inline_tag := if tg.head? = some '@' then tg.drop 1 else tg
  String.mk
    (pyReplace (pyReplace (pyReplace (pyReplace (pyReplace (pyReplace
      (pyReplace (pyReplace text.data
        ('@' :: tg ++ ['\n', '\n']) nt)
        ('@' :: tg ++ ['\n']) nt)
        ('@' :: tg ++ [',', ' ']) nt)
        ('@' :: tg) nt)
        (tg ++ ['\n', '\n']) nt)
        (tg ++ [',', ' ']) nt)
        (tg ++ [',']) inline_tag)
        tg inline_tag)

/-- `Task.remove_tag` restricted to the task's own fields.  The returned
boolean is the `modified` flag: it is true exactly when the structured set
contained the tag, and in the source it gates both the child recursion and
the tag-registry notification (`tag.update_task`/`tag.modified`). -/
def remove_tag (tagname : String) (t : TagTask) : TagTask × Bool :=
  let (modified, t1) :=
    if tagname ∈ t.tags then (true, { t with tags := t.tags.erase tagname })
    else (false, t)
  ({ t1 with content := strip_tag t1.content tagname "" }, modified)

/-- Index of the first occurrence of `pat` in `l`, if any. -/
def findSub (pat : List Char) : List Char → Option Nat
  | [] => if pat = [] then some 0 else none
  | c :: cs =>
    if pat.isPrefixOf (c :: cs) then some 0
    else (findSub pat cs).map (· + 1)

/-- `content` has no literal `@name` marker. -/
def noMarker (content name : String) : Prop :=
  findSub ('@' :: name.data) content.data = none

instance (content name : String) : Decidable (noMarker content name) :=
  inferInstanceAs (Decidable (_ = _))

/-! ## `Task.get_excerpt` -/

/-- `xml.sax.saxutils.escape`: replace `&`, `<`, `>`. -/
def saxEscapeL (s : List Char) : List Char :=
  s.flatMap fun c =>
    if c = '&' then "&amp;".data
    else if c = '<' then "&lt;".data
    else if c = '>' then "&gt;".data
    else [c]

/-- The whitespace set of Python `str.strip()`. -/
def pySpace (c : Char) : Bool :=
  c = ' ' || c = '\t' || c = '\n' || c = '\r' || c = '\x0b' || c = '\x0c'

/-- Python `str.strip()`. -/
def pyStrip (l : List Char) : List Char :=
  ((l.dropWhile pySpace).reverse.dropWhile pySpace).reverse

/-- Split on a separator character (`str.splitlines` for pure-`'\n'` text;
trailing empties are filtered out right after, matching Python). -/
def splitChar (sep : Char) : List Char → List (List Char)
  | [] => [[]]
  | c :: cs =>
    match splitChar sep cs with
    | [] => [[]]
    | h :: t => if c = sep then [] :: h :: t else (c :: h) :: t

/-- Index just past the last occurrence of `pat` in `l` starting at or
after position `i`, if any. -/
def findLastEnd (pat : List Char) (l : List Char) (i : Nat) : Option Nat :=
  let idxs := (List.range (l.length + 1)).filter
    (fun j => i ≤ j ∧ pat.isPrefixOf (l.drop j))
  idxs.getLast?.map (· + pat.length)

/-- One line of `re.sub(r'\x7b\!.+\!\x7d', '', txt)`: the pattern cannot
cross a newline, so on each line the single leftmost-longest match runs
from the first `"\x7b!"` to the last `"!\x7d"` after it with a non-empty
gap; everything between is deleted. -/
def stripSubtasksLine (l : List Char) : List Char :=
  let openPat : List Char := ['\x7b', '!']
  let closePat : List Char := ['!', '\x7d']
  match findSub openPat l with
  | none => l
  | some i =>
    match findLastEnd closePat l (i + 3) with
    | none => l
    | some e => l.take i ++ l.drop e

/-- Join lines with `'\n'`. -/
def joinLines : List (List Char) → List Char
  | [] => []
  | [l] => l
  | l :: ls => l ++ '\n' :: joinLines ls

/-- `re.sub(r'\x7b\!.+\!\x7d', '', txt)` over the whole text. -/
def stripSubtasks (s : List Char) : List Char :=
  joinLines ((splitChar '\n' s).map stripSubtasksLine)

/-- `Task.get_excerpt`.  `tags` plays the role of `self.get_tags_name()`.
Mirrors the source: escape, strip, optional tag stripping, optional subtask
stripping, drop blank lines, `txt[:lines]`, join, and `txt[:char]` only
when `char > 0`.  Python's `txt[:0]` on the line list yields `[]`, exactly
as `List.take 0` does. -/
def get_excerpt (tags : List String) (content : String)
    (lines char : Nat) (strip_tags strip_subtasks : Bool) : String :=
  if content = "" then ""
  else
    let txt := saxEscapeL content.data
    let txt := pyStrip txt
    let txt := if strip_tags then
        tags.foldl (fun t tag =>
          pyReplace (pyReplace (pyReplace t
            ('@' :: tag.data ++ [',', ' ']) [])
            ('@' :: tag.data ++ [',']) [])
            ('@' :: tag.data) []) txt
      else txt
    let txt := if strip_subtasks then stripSubtasks txt else txt
    let ls := (splitChar '\n' txt).filter (fun line => line ≠ [])
    let ls := ls.take lines
    let txt := joinLines ls
    String.mk (if char > 0 then txt.take char else txt)

/-! ## `Task.set_recurring` (single-task fragment)

The child loop at the end of `set_recurring` only mutates children, so for
a task with no children the fragment below is the whole method.  The
external `Date.parse_from_date` (in `dates.py`, outside the sources) is
abstracted as the oracle `parse start_from term newtask`, returning `none`
when the Python call raises `ValueError`. -/

/-- The fields of a task read or written by `set_recurring`. -/
structure RecurTask where
  recurring : Bool
  recurring_term : Option String
  recurring_updated_date : Date
  start_date : Date
  due_date : Date
deriving DecidableEq

/-- `Task.set_recurring` for a task with no children.  `now` models
`datetime.now()`.  The inner `is_valid_term` picks the start point
(`start_date` when set, else now) and asks the oracle for the next date. -/
def set_recurring (parse : Date → String → Bool → Option Date) (now : Date)
    (recurring : Bool) (recurring_term : Option String) (newtask : Bool)
    (t : RecurTask) : RecurTask :=
  let start_from := if t.start_date = Date.nodate then now else t.start_date
  let valid_newdate : Option Date :=
    match recurring_term with
    | none => none
    | some tm => parse start_from tm newtask
  let valid := valid_newdate.isSome
  let t := { t with recurring := recurring }
  let recurring_term := if valid then recurring_term else none
  if t.recurring then
    if valid = false then { t with recurring_term := none, recurring := false }
    else
      let t := { t with recurring_term := recurring_term,
                        recurring_updated_date := now }
      if newtask then { t with due_date := valid_newdate.getD t.due_date } else t
  else
    if valid then
      { t with recurring_term := recurring_term, recurring_updated_date := now }
    else t

/-! ## `Task.get_next_occurrence` -/

/-- The `while` loops of `get_next_occurrence`, with fuel: keep advancing
until `stop` holds for the current candidate. -/
def advanceWhile (advance : Nat → Nat) (stop : Nat → Bool) :
    Nat → Nat → Option Nat
  | 0, _ => none
  | f+1, cur =>
    if stop cur then some cur else advanceWhile advance stop f (advance cur)

/-- `Task.get_next_occurrence` for a task whose `due_date` is the concrete
day `due` and whose `recurring_term` parses: `advance` models
`d.parse_from_date(self.recurring_term, newtask=False)` on the concrete day
`d` (spec-modelled oracle for `dates.py`), `today` models `date.today()`.
First branch (`today <= due_date`): start from `due.parse_from_date(...)`
and advance while the candidate is `<=` the due date.  Second branch
(`today > due_date`): advance while the candidate is `<` today. -/
def get_next_occurrence (advance : Nat → Nat) (today due : Nat)
    (fuel : Nat) : Option Nat :=
  if today ≤ due then
    advanceWhile advance (fun nextdate => decide (due < nextdate)) fuel
      (advance due)
  else
    advanceWhile advance (fun next_date => decide (today ≤ next_date)) fuel
      (advance due)

/-! ## Multi-task models: tree structure

`set_status` and `set_due_date` walk the liblarch tree.  The tree structure
(id lists) is owned by the external collaborator and is not mutated by
either method, so it is a fixed `TaskGraph` outside the mutable state. -/

/-- Parent/child id lists of the liblarch tree collaborator. -/
structure TaskGraph where
  parents : Nat → List Nat
  children : Nat → List Nat

/-- Parent and child lists are mutually consistent. -/
def TaskGraph.WF (G : TaskGraph) : Prop :=
  ∀ a p, p ∈ G.parents a ↔ a ∈ G.children p

/-- Plain ancestor chains through a neighbour map (date-independent). -/
inductive AncFrom (nbr : Nat → List Nat) : List Nat → Nat → Prop
  | here {l p} : p ∈ l → AncFrom nbr l p
  | step {l p b} : p ∈ l → AncFrom nbr (nbr p) b → AncFrom nbr l b

/-- No task is its own strict ancestor (the tree collaborator prevents
cycles; this core does not defend against them). -/
def TaskGraph.Acyclic (G : TaskGraph) : Prop :=
  ∀ z, ¬ AncFrom G.parents (G.parents z) z

/-! ## `Task.set_status` -/

/-- Task statuses (`STA_ACTIVE`, `STA_DONE`, `STA_DISMISSED`, plus the
legacy inert Note). -/
inductive TStatus where
  | active | done | dismissed | note
deriving DecidableEq

/-- The fields of a task read or written by `set_status`. -/
structure STask where
  status : TStatus
  closed_date : Date
  loaded : Bool
  can_be_deleted : Bool
  recurring : Bool
deriving DecidableEq

/-- Mutable state for the `set_status` model: the id-to-task map plus the
observable effects (emitted `status-changed` events and `sync()` calls). -/
structure SState where
  tasks : Nat → STask
  emits : List (Nat × TStatus × TStatus)
  syncs : List Nat

/-- Point update of one task's record. -/
def SState.setTask (s : SState) (x : Nat) (tk : STask) : SState :=
  { s with tasks := fun z => if z = x then tk else s.tasks z }

/-- `Task.sync`: records the modification (timestamp update plus the
liblarch `modified()` notification when loaded). -/
def SState.sync (s : SState) (x : Nat) : SState :=
  { s with syncs := s.syncs ++ [x] }

/-- `Task.is_parent_recurring`: some parent is loaded, Active and
recurring. -/
def is_parent_recurring (G : TaskGraph) (s : SState) (x : Nat) : Bool :=
  (G.parents x).any fun p =>
    (s.tasks p).loaded && ((s.tasks p).status == .active)
      && (s.tasks p).recurring

/-- The child loop of `set_status` on entering Done/Dismiss: children that
are currently Active are recursively transitioned (`propagation = True`). -/
def doneChildLoop (rec : Nat → SState → Option SState) :
    List Nat → SState → Option SState
  | [], s => some s
  | c :: cs, s => do
    let t ← if (s.tasks c).status = .active then rec c s else some s
    doneChildLoop rec cs t

/-- The parent loop of `set_status` on entering Active from Done/Dismiss:
loaded Done/Dismissed parents are recursively reactivated. -/
def activeParentLoop (rec : Nat → SState → Option SState) :
    List Nat → SState → Option SState
  | [], s => some s
  | p :: ps, s => do
    let t ← if (s.tasks p).loaded = true ∧
        ((s.tasks p).status = .done ∨ (s.tasks p).status = .dismissed)
      then rec p s else some s
    activeParentLoop rec ps t

/-- `Task.set_status G today fuel x status donedate propagation init s`.
`status = none` models a `None`/empty status; `today` models
`Date.today()`.  The recurrence-duplication branch (a directly completed
recurring task without a recurring Active parent duplicates its subtree
through the datastore and re-attaches the clone) allocates fresh tasks and
is outside this model: when its guard fires the model returns `none`.  Its
effects never touch the status or closed date of any existing task. -/
def set_status (G : TaskGraph) (today : Date) :
    Nat → Nat → Option TStatus → Option Date → Bool → Bool → SState →
    Option SState
  | 0, _, _, _, _, _, _ => none
  | f+1, x, status, donedate, propagation, init, s =>
    let old_status := (s.tasks x).status
    let s := s.setTask x { s.tasks x with can_be_deleted := false }
    do
    let s1 ←
      match status with
      | some st =>
        if (s.tasks x).loaded then
          if st = .done ∨ st = .dismissed then do
            let s2 ← doneChildLoop
              (fun c t => set_status G today f c status donedate true false t)
              (G.children x) s
            if (s2.tasks x).recurring = true ∧ propagation = false ∧
                is_parent_recurring G s2 x = false
            then none
            else some s2
          else if st = .active ∧
              (old_status = .done ∨ old_status = .dismissed) then
            activeParentLoop
              (fun p t =>
                set_status G today f p (some .active) none false false t)
              (G.parents x) s
          else some s
        else some s
      | none => some s
    let s2 :=
      match status with
      | some st =>
        let s1e := if init = false then
            { s1 with emits := s1.emits ++ [(x, (s1.tasks x).status, st)] }
          else s1
        s1e.setTask x { s1e.tasks x with status := st }
      | none => s1
    let s3 :=
      match status with
      | some st =>
        if st = TStatus.done ∨ st = TStatus.dismissed then
          s2.setTask x { s2.tasks x with closed_date := donedate.getD today }
        else s2
      | none => s2
    some (s3.sync x)

/-- Chains of Active children whose interior nodes are loaded: the shape of
tree along which the Done/Dismiss cascade can actually travel. -/
inductive ActiveChain (G : TaskGraph) (s : SState) : Nat → Nat → Prop
  | base {a c} : c ∈ G.children a → (s.tasks c).status = .active →
      ActiveChain G s a c
  | step {a c g} : c ∈ G.children a → (s.tasks c).status = .active →
      (s.tasks c).loaded = true → ActiveChain G s c g → ActiveChain G s a g

/-- Chains of loaded Done/Dismissed parents: the shape along which the
reactivation cascade travels upward. -/
inductive ClosedParentChain (G : TaskGraph) (s : SState) : Nat → Nat → Prop
  | base {a p} : p ∈ G.parents a → (s.tasks p).loaded = true →
      ((s.tasks p).status = .done ∨ (s.tasks p).status = .dismissed) →
      ClosedParentChain G s a p
  | step {a p q} : p ∈ G.parents a → (s.tasks p).loaded = true →
      ((s.tasks p).status = .done ∨ (s.tasks p).status = .dismissed) →
      ClosedParentChain G s p q → ClosedParentChain G s a q

/-- Composable effect frame of the Done/Dismiss direction of `set_status`:
statuses only move to the target `st`; every task whose status moved got
its closed date set to the supplied or current date, and closed dates are
only ever written that value; `loaded` flags are untouched; and every task
that flipped from Active to `st` while loaded has no Active child left. -/
def DoneFrame (G : TaskGraph) (today : Date) (st : TStatus)
    (dd : Option Date) (s s' : SState) : Prop :=
  (∀ z, (s'.tasks z).status = (s.tasks z).status ∨ (s'.tasks z).status = st) ∧
  (∀ z, (s'.tasks z).status ≠ (s.tasks z).status →
    (s'.tasks z).closed_date = dd.getD today) ∧
  (∀ z, (s'.tasks z).closed_date = (s.tasks z).closed_date ∨
    (s'.tasks z).closed_date = dd.getD today) ∧
  (∀ z, (s'.tasks z).loaded = (s.tasks z).loaded) ∧
  (∀ z, (s.tasks z).status = TStatus.active → (s'.tasks z).status = st →
    (s.tasks z).loaded = true →
    ∀ c ∈ G.children z, (s'.tasks c).status ≠ TStatus.active)

/-- Effect summary of a completed Done/Dismiss `set_status` call rooted at
`x`: the frame, plus `x` ends with status `st` and the closing date, and
when `x` is loaded none of its children is left Active. -/
def DonePost (G : TaskGraph) (today : Date) (st : TStatus) (dd : Option Date)
    (x : Nat) (s s' : SState) : Prop :=
  DoneFrame G today st dd s s' ∧
  ((s'.tasks x).status = st ∧ (s'.tasks x).closed_date = dd.getD today) ∧
  ((s.tasks x).loaded = true →
    ∀ c ∈ G.children x, (s'.tasks c).status ≠ TStatus.active)

/-- Composable effect frame of the reactivation direction of `set_status`:
statuses only move to Active; closed dates and `loaded` flags are
untouched; and every loaded task that flipped from Done/Dismissed to
Active has no loaded Done/Dismissed parent left. -/
def ActiveFrame (G : TaskGraph) (s s' : SState) : Prop :=
  (∀ z, (s'.tasks z).status = (s.tasks z).status ∨
    (s'.tasks z).status = TStatus.active) ∧
  (∀ z, (s'.tasks z).closed_date = (s.tasks z).closed_date) ∧
  (∀ z, (s'.tasks z).loaded = (s.tasks z).loaded) ∧
  (∀ z, ((s.tasks z).status = TStatus.done ∨
      (s.tasks z).status = TStatus.dismissed) →
    (s'.tasks z).status = TStatus.active → (s.tasks z).loaded = true →
    ∀ p ∈ G.parents z, (s'.tasks p).loaded = true →
      (s'.tasks p).status ≠ TStatus.done ∧
        (s'.tasks p).status ≠ TStatus.dismissed)

/-- Effect summary of a completed reactivation call rooted at `x`: the
frame, plus `x` ends Active and only `x` and its ancestors changed. -/
def ActivePost (G : TaskGraph) (x : Nat) (s s' : SState) : Prop :=
  ActiveFrame G s s' ∧
  ((s'.tasks x).status = TStatus.active) ∧
  (∀ z, (s'.tasks z).status ≠ (s.tasks z).status →
    z = x ∨ AncFrom G.parents (G.parents x) z)

/-! ## `Task.set_due_date` -/

/-- Mutable state for the `set_due_date` model: due and start dates plus
the `sync()` trace (`recursive_sync` visits and `set_start_date` calls). -/
structure DState where
  due : Nat → Date
  start : Nat → Date
  syncs : List Nat

/-- Point update of a due date. -/
def DState.setDue (s : DState) (x : Nat) (d : Date) : DState :=
  { s with due := fun z => if z = x then d else s.due z }

/-- `Task.set_start_date`: assignment plus `sync()`. -/
def DState.set_start_date (s : DState) (x : Nat) (d : Date) : DState :=
  { s with start := fun z => if z = x then d else s.start z,
           syncs := s.syncs ++ [x] }

/-- `__get_defined_parent_list` / `__get_defined_child_list`, generalized
over the neighbour map (`parents` or `children`): collect ids from the
list whose due date is not fuzzy, recursing transparently through fuzzy
ones.  Fuel bounds the recursion depth. -/
def skipFuzzy (nbr : Nat → List Nat) : Nat → (Nat → Date) → List Nat →
    Option (List Nat)
  | 0, _, _ => none
  | _+1, _, [] => some []
  | f+1, dm, p :: ps => do
    let h ← if (dm p).is_fuzzy then skipFuzzy nbr f dm (nbr p) else some [p]
    let t ← skipFuzzy nbr f dm ps
    some (h ++ t)

/-- The ancestor loop of `set_due_date`: defined, non-fuzzy ancestors whose
due date is earlier than the new date are pulled forward. -/
def dueParentLoop (rec : Nat → DState → Option DState) (d : Date) :
    List Nat → DState → Option DState
  | [], s => some s
  | p :: ps, s => do
    let t ← if Date.blt (s.due p) d then rec p s else some s
    dueParentLoop rec d ps t

/-- The descendant loop of `set_due_date`: defined, non-fuzzy descendants
whose due date is later are pulled back, and their non-fuzzy start dates
later than the new date are pulled back too. -/
def dueChildLoop (rec : Nat → DState → Option DState) (d : Date) :
    List Nat → DState → Option DState
  | [], s => some s
  | c :: cs, s => do
    let t ← if Date.blt d (s.due c) then rec c s else some s
    let t := if (t.start c).is_fuzzy = false ∧ Date.blt d (t.start c)
      then t.set_start_date c d else t
    dueChildLoop rec d cs t

/-- Fold of a fueled recursion over a list of ids. -/
def syncLoop (rec : Nat → DState → Option DState) :
    List Nat → DState → Option DState
  | [], s => some s
  | c :: cs, s => do
    let t ← rec c s
    syncLoop rec cs t

/-- `Task.recursive_sync`: sync the task and, recursively, every child. -/
def recursive_sync (G : TaskGraph) : Nat → Nat → DState → Option DState
  | 0, _, _ => none
  | f+1, x, s =>
    syncLoop (recursive_sync G f) (G.children x)
      { s with syncs := s.syncs ++ [x] }

/-- `Task.set_due_date` with fuel.  Stores the new date; when it is not
fuzzy, pulls the defined ancestor list forward and the defined descendant
list (computed after the ancestor pass, as in the source) back; finally,
when the stored date changed, re-syncs the whole subtree. -/
def set_due_date (G : TaskGraph) : Nat → Nat → Date → DState → Option DState
  | 0, _, _, _ => none
  | f+1, x, d, s =>
    let old_due_date := s.due x
    let s0 := s.setDue x d
    do
    let s1 ←
      if d.is_fuzzy then some s0
      else do
        let P ← skipFuzzy G.parents f s0.due (G.parents x)
        let sa ← dueParentLoop (fun p t => set_due_date G f p d t) d P s0
        let C ← skipFuzzy G.children f sa.due (G.children x)
        dueChildLoop (fun c t => set_due_date G f c d t) d C sa
    if old_due_date ≠ d then recursive_sync G f x s1 else some s1

/-- Skip-chains through a neighbour map: `SkipFrom nbr dm l b` holds when
`b` is reachable from the id list `l` by stepping through ids whose due
date is fuzzy, ending at the non-fuzzy `b` — the relational counterpart of
what `skipFuzzy` collects. -/
inductive SkipFrom (nbr : Nat → List Nat) (dm : Nat → Date) :
    List Nat → Nat → Prop
  | here {l p} : p ∈ l → (dm p).is_fuzzy = false → SkipFrom nbr dm l p
  | skip {l p b} : p ∈ l → (dm p).is_fuzzy = true →
      SkipFrom nbr dm (nbr p) b → SkipFrom nbr dm l b

/-- `b` is a nearest non-fuzzy ancestor of `a` along some upward path that
skips fuzzy tasks transparently. -/
def UpChain (G : TaskGraph) (dm : Nat → Date) (a b : Nat) : Prop :=
  SkipFrom G.parents dm (G.parents a) b

/-- `c` is a nearest non-fuzzy descendant of `a` along some downward path
that skips fuzzy tasks transparently. -/
def DownChain (G : TaskGraph) (dm : Nat → Date) (a c : Nat) : Prop :=
  SkipFrom G.children dm (G.children a) c

/-- The due-date constraint invariant (spec invariant 1): every task with a
non-fuzzy due date is due no later than each nearest non-fuzzy ancestor
reached by skipping fuzzy tasks. -/
def DueInv (G : TaskGraph) (s : DState) : Prop :=
  ∀ a b, (s.due a).is_fuzzy = false → UpChain G s.due a b →
    Date.blt (s.due b) (s.due a) = false

/-- All writes of a `set_due_date` cascade carry the new date: every due
and start date either keeps its old value or becomes `d`. -/
def DueWrites (d : Date) (s s' : DState) : Prop :=
  (∀ z, s'.due z = s.due z ∨ s'.due z = d) ∧
  (∀ z, s'.start z = s.start z ∨ s'.start z = d)

/-- A task's up-neighbourhood is repaired w.r.t. the reference fuzziness
map `dmR`: every nearest non-fuzzy ancestor is due no earlier than `d`. -/
def UpRepaired (G : TaskGraph) (dmR : Nat → Date) (d : Date) (z : Nat)
    (t' : DState) : Prop :=
  ∀ b, SkipFrom G.parents dmR (G.parents z) b →
    Date.blt (t'.due b) d = false

/-- A task's down-neighbourhood is repaired: every nearest non-fuzzy
descendant is due no later than `d`, and its non-fuzzy start dates are no
later than `d`. -/
def DownRepaired (G : TaskGraph) (dmR : Nat → Date) (d : Date) (z : Nat)
    (t' : DState) : Prop :=
  ∀ c, SkipFrom G.children dmR (G.children z) c →
    Date.blt d (t'.due c) = false ∧
    ((t'.start c).is_fuzzy = false → Date.blt d (t'.start c) = false)

/-- Effect summary of a completed `set_due_date` call on `x` with the
non-fuzzy date `d`, relative to a reference date map `dmR` that agrees in
fuzziness with the state after the head assignment: all writes carry `d`;
`x` ends at `d`; every other task whose due date moved was non-fuzzy
before; fuzziness agrees with `dmR` afterwards; `x` is up- and
down-repaired; and so is every task whose due date was pulled to `d`. -/
def DuePost (G : TaskGraph) (dmR : Nat → Date) (x : Nat) (d : Date)
    (t t' : DState) : Prop :=
  DueWrites d t t' ∧
  t'.due x = d ∧
  (∀ z, z ≠ x → t'.due z ≠ t.due z → (t.due z).is_fuzzy = false) ∧
  (∀ z, (t'.due z).is_fuzzy = (dmR z).is_fuzzy) ∧
  (UpRepaired G dmR d x t' ∧ DownRepaired G dmR d x t') ∧
  (∀ z, t'.due z = d → t.due z ≠ d →
    UpRepaired G dmR d z t' ∧ DownRepaired G dmR d z t')

/-! # Theorems -/

/-! ## Date order -/

theorem Date.blt_irrefl (a : Date) : Date.blt a a = false := by
  cases a <;> simp [Date.blt]

/-- If `a < concrete n` then `a` is concrete (non-fuzzy). -/
theorem Date.blt_concrete_right {a : Date} {n : Nat}
    (h : Date.blt a (.concrete n) = true) : a.is_fuzzy = false := by
  cases a <;> simp_all [Date.blt, Date.is_fuzzy]

/-- Transitivity of the non-strict order `le a b := blt b a = false`. -/
theorem Date.ble_trans {a b c : Date}
    (h1 : Date.blt b a = false) (h2 : Date.blt c b = false) :
    Date.blt c a = false := by
  cases a <;> cases b <;> cases c <;> simp_all [Date.blt] <;> omega

/-! ## C6: `get_excerpt` truncation -/

/-- C6.  The code contradicts both the claim and its own docstring: because
`txt = txt[:lines]` is applied unconditionally, `lines = 0` does not mean
"unbounded" but truncates the line list to nothing.  On five non-blank
lines, `get_excerpt(lines=2)` does return the first two lines (first
conjunct), but `get_excerpt(char=10)` — which leaves `lines` at its default
`0` — returns the empty string instead of the first ten characters (second
conjunct), and `get_excerpt()` with both dimensions 0 returns the empty
string instead of the whole cleaned content (third conjunct). -/
theorem c6_excerpt_zero_lines_truncates :
    get_excerpt [] "l1\nl2\nl3\nl4\nl5" 2 0 false true = "l1\nl2" ∧
    get_excerpt [] "l1\nl2\nl3\nl4\nl5" 0 10 false true = "" ∧
    get_excerpt [] "a\nb" 0 0 false true = "" ∧ "a\nb" ≠ "" := by
  refine ⟨by decide, by decide, by decide, by decide⟩

/-! ## C8: tag round trip -/

/-- C8.  `add_tag "foo"` then `remove_tag "foo"` restores `content` (so in
particular no literal `@foo` marker remains) and removes `"foo"` from
`tags`, in each of the three separator cases of `add_tag`: content empty
(no separator), content starting with another tag marker (comma
separator), and content starting with plain text (blank-line separator). -/
theorem c8_tag_round_trip :
    ((remove_tag "foo" (add_tag "foo" ⟨"", []⟩)).1.content = "" ∧
      noMarker (remove_tag "foo" (add_tag "foo" ⟨"", []⟩)).1.content "foo" ∧
      "foo" ∉ (remove_tag "foo" (add_tag "foo" ⟨"", []⟩)).1.tags) ∧
    ((remove_tag "foo" (add_tag "foo" ⟨"@bar", ["bar"]⟩)).1.content = "@bar" ∧
      noMarker (remove_tag "foo"
        (add_tag "foo" ⟨"@bar", ["bar"]⟩)).1.content "foo" ∧
      "foo" ∉ (remove_tag "foo" (add_tag "foo" ⟨"@bar", ["bar"]⟩)).1.tags) ∧
    ((remove_tag "foo" (add_tag "foo" ⟨"hello", []⟩)).1.content = "hello" ∧
      noMarker (remove_tag "foo" (add_tag "foo" ⟨"hello", []⟩)).1.content "foo" ∧
      "foo" ∉ (remove_tag "foo" (add_tag "foo" ⟨"hello", []⟩)).1.tags) := by
  refine ⟨⟨by decide, by decide, by decide⟩,
    ⟨by decide, by decide, by decide⟩, ⟨by decide, by decide, by decide⟩⟩

/-! ## C10: removing an absent tag -/

/-- C10.  Removing a tag that is not in the structured tag set leaves the
tag set unchanged and sends no tag-registry notification (the `modified`
flag stays false), yet the literal marker-stripping rewrite is still
applied to `content`; the last conjunct shows a concrete content that is
modified although the tag was never added through the tag API. -/
theorem c10_remove_absent_tag_strips_content
    (t : TagTask) (name : String) (h : name ∉ t.tags) :
    (remove_tag name t).1.tags = t.tags ∧ (remove_tag name t).2 = false ∧
    (remove_tag name t).1.content = strip_tag t.content name "" ∧
    ((remove_tag "foo" (⟨"see @foo stuff", []⟩ : TagTask)).1.content
        = "see  stuff" ∧ "see  stuff" ≠ "see @foo stuff") := by
  refine ⟨?_, ?_, ?_, by decide, by decide⟩ <;> simp [remove_tag, h]

theorem c10_remove_absent_tag_strips_content_witness :
    ("quux" ∉ (⟨"see @foo stuff", ["foo"]⟩ : TagTask).tags) ∧
    ((remove_tag "quux" (⟨"see @foo stuff", ["foo"]⟩ : TagTask)).1.tags
        = ["foo"] ∧
      (remove_tag "quux" (⟨"see @foo stuff", ["foo"]⟩ : TagTask)).2 = false ∧
      (remove_tag "quux" (⟨"see @foo stuff", ["foo"]⟩ : TagTask)).1.content
        = strip_tag "see @foo stuff" "quux" "" ∧
      ((remove_tag "foo" (⟨"see @foo stuff", []⟩ : TagTask)).1.content
          = "see  stuff" ∧ "see  stuff" ≠ "see @foo stuff")) :=
  ⟨by decide, c10_remove_absent_tag_strips_content _ "quux" (by decide)⟩

/-! ## C2: `set_recurring(False, valid term)` -/

/-- C2.  The claim (and the method's own docstring, case three: "if not
repeating and the term is valid: we set the bool attr to True") says a
valid term arms recurrence even when `recurring=False` is requested.  The
code does not: `self.recurring = recurring` stores `False` and the
`else`-branch stores the term and refreshes `recurring_updated_date`
without ever setting the flag, so the task ends up *not* recurring. -/
theorem c2_set_recurring_false_valid_term_stays_off
    (parse : Date → String → Bool → Option Date) (now : Date)
    (tm : String) (d : Date) (t : RecurTask)
    (h : parse (if t.start_date = Date.nodate then now else t.start_date)
      tm false = some d) :
    (set_recurring parse now false (some tm) false t).recurring = false ∧
    (set_recurring parse now false (some tm) false t).recurring_term
      = some tm ∧
    (set_recurring parse now false (some tm) false t).recurring_updated_date
      = now := by
  simp [set_recurring, h]

theorem c2_set_recurring_false_valid_term_stays_off_witness :
    ((fun _ _ _ => some (Date.concrete 4)) (if (⟨true, none, .nodate,
        .nodate, .nodate⟩ : RecurTask).start_date = Date.nodate
        then Date.concrete 1
        else (⟨true, none, .nodate, .nodate, .nodate⟩ : RecurTask).start_date)
      "day" false = some (Date.concrete 4)) ∧
    ((set_recurring (fun _ _ _ => some (Date.concrete 4)) (Date.concrete 1)
        false (some "day") false
        ⟨true, none, .nodate, .nodate, .nodate⟩).recurring = false ∧
      (set_recurring (fun _ _ _ => some (Date.concrete 4)) (Date.concrete 1)
        false (some "day") false
        ⟨true, none, .nodate, .nodate, .nodate⟩).recurring_term
        = some "day" ∧
      (set_recurring (fun _ _ _ => some (Date.concrete 4)) (Date.concrete 1)
        false (some "day") false
        ⟨true, none, .nodate, .nodate,
          .nodate⟩).recurring_updated_date = Date.concrete 1) :=
  ⟨rfl, c2_set_recurring_false_valid_term_stays_off _ _ "day"
    (Date.concrete 4) _ rfl⟩

/-! ## C5: `get_next_occurrence` boundaries -/

/-- A completed `advanceWhile` run returns the first iterate satisfying
`stop`. -/
theorem advanceWhile_spec (advance : Nat → Nat) (stop : Nat → Bool) :
    ∀ f c r, advanceWhile advance stop f c = some r →
      ∃ k, r = advance^[k] c ∧ stop r = true ∧
        ∀ j, j < k → stop (advance^[j] c) = false := by
  intro f
  induction f with
  | zero => intro c r h; simp [advanceWhile] at h
  | succ f ih =>
    intro c r h
    rw [advanceWhile] at h
    by_cases hs : stop c
    · rw [if_pos hs] at h
      refine ⟨0, by simpa using (Option.some_inj.mp h).symm, ?_, by omega⟩
      rwa [← Option.some_inj.mp h]
    · rw [if_neg hs] at h
      obtain ⟨k, hk, hstop, hmin⟩ := ih (advance c) r h
      refine ⟨k + 1, by rw [hk, Function.iterate_succ_apply], hstop, ?_⟩
      intro j hj
      cases j with
      | zero => simpa using hs
      | succ j =>
        rw [Function.iterate_succ_apply]
        exact hmin j (by omega)

/-- C5.  For a parseable recurring term (`advance` total on concrete days),
a completed `get_next_occurrence` returns, when today is on-or-before the
due date, the first repeated advancement of the due date that is strictly
after the due date (every earlier advancement is `<=` the due date), and,
when today is strictly after the due date, the first advancement that is
no earlier than today (every earlier one is `<` today): the two branches
use asymmetric boundary tests. -/
theorem c5_next_occurrence_boundary_asymmetry (advance : Nat → Nat)
    (today due fuel r : Nat)
    (h : get_next_occurrence advance today due fuel = some r) :
    (today ≤ due →
      ∃ n, 1 ≤ n ∧ r = advance^[n] due ∧ due < r ∧
        ∀ m, 1 ≤ m → m < n → advance^[m] due ≤ due) ∧
    (due < today →
      ∃ n, 1 ≤ n ∧ r = advance^[n] due ∧ today ≤ r ∧
        ∀ m, 1 ≤ m → m < n → advance^[m] due < today) := by
  constructor
  · intro hle
    rw [get_next_occurrence, if_pos hle] at h
    obtain ⟨k, hk, hstop, hmin⟩ := advanceWhile_spec _ _ _ _ _ h
    refine ⟨k + 1, by omega, by rw [hk, Function.iterate_succ_apply],
      by simpa using hstop, ?_⟩
    intro m h1 h2
    have hj := hmin (m - 1) (by omega)
    rw [← Function.iterate_succ_apply] at hj
    have hm1 : m - 1 + 1 = m := by omega
    rw [Nat.succ_eq_add_one, hm1] at hj
    simpa using hj
  · intro hlt
    rw [get_next_occurrence, if_neg (by omega)] at h
    obtain ⟨k, hk, hstop, hmin⟩ := advanceWhile_spec _ _ _ _ _ h
    refine ⟨k + 1, by omega, by rw [hk, Function.iterate_succ_apply],
      by simpa using hstop, ?_⟩
    intro m h1 h2
    have hj := hmin (m - 1) (by omega)
    rw [← Function.iterate_succ_apply] at hj
    have hm1 : m - 1 + 1 = m := by omega
    rw [Nat.succ_eq_add_one, hm1] at hj
    simpa using hj

theorem c5_next_occurrence_boundary_asymmetry_witness :
    (get_next_occurrence (fun n => n + 2) 3 5 10 = some 7) ∧
    ((3 ≤ 5 →
      ∃ n, 1 ≤ n ∧ 7 = (fun n => n + 2)^[n] 5 ∧ 5 < 7 ∧
        ∀ m, 1 ≤ m → m < n → (fun n => n + 2)^[m] 5 ≤ 5) ∧
    (5 < 3 →
      ∃ n, 1 ≤ n ∧ 7 = (fun n => n + 2)^[n] 5 ∧ 3 ≤ 7 ∧
        ∀ m, 1 ≤ m → m < n → (fun n => n + 2)^[m] 5 < 3)) :=
  ⟨by decide, c5_next_occurrence_boundary_asymmetry (fun n => n + 2) 3 5 10 7
    (by decide)⟩

/-! ## `set_status` cascade machinery (C3, C4) -/

theorem SState.setTask_get (s : SState) (x : Nat) (tk : STask) (z : Nat) :
    (s.setTask x tk).tasks z = if z = x then tk else s.tasks z := rfl

theorem SState.sync_get (s : SState) (x z : Nat) :
    ((s.sync x).tasks z) = s.tasks z := rfl

/-- The opening `self.can_be_deleted = False` write changes no other
field. -/
theorem canDel_write_fields (s : SState) (x z : Nat) :
    (((s.setTask x { s.tasks x with can_be_deleted := false }).tasks
        z).status = (s.tasks z).status) ∧
    (((s.setTask x { s.tasks x with can_be_deleted := false }).tasks
        z).closed_date = (s.tasks z).closed_date) ∧
    (((s.setTask x { s.tasks x with can_be_deleted := false }).tasks
        z).loaded = (s.tasks z).loaded) := by
  by_cases h : z = x <;> simp [SState.setTask, h]

theorem doneFrame_refl (G : TaskGraph) (today : Date) (st : TStatus)
    (dd : Option Date) (hst : st ≠ TStatus.active) (s : SState) :
    DoneFrame G today st dd s s := by
  refine ⟨fun z => Or.inl rfl, fun z hz => absurd rfl hz, fun z => Or.inl rfl,
    fun z => rfl, fun z h1 h2 _ c _ => ?_⟩
  exact absurd (h2.symm.trans h1) hst

/-- The Done/Dismiss effect frame composes. -/
theorem doneFrame_trans {G : TaskGraph} {today : Date} {st : TStatus}
    {dd : Option Date} (hst : st ≠ TStatus.active) {s t s' : SState}
    (h1 : DoneFrame G today st dd s t) (h2 : DoneFrame G today st dd t s') :
    DoneFrame G today st dd s s' := by
  obtain ⟨a1, b1, c1, d1, e1⟩ := h1
  obtain ⟨a2, b2, c2, d2, e2⟩ := h2
  refine ⟨?_, ?_, ?_, ?_, ?_⟩
  · intro z
    rcases a2 z with h | h
    · rw [h]; exact a1 z
    · exact Or.inr h
  · intro z hz
    by_cases hzt : (t.tasks z).status = (s.tasks z).status
    · exact b2 z (by rw [hzt]; exact hz)
    · have hcl : (t.tasks z).closed_date = dd.getD today := b1 z hzt
      rcases c2 z with h | h
      · rw [h, hcl]
      · exact h
  · intro z
    rcases c2 z with h | h
    · rw [h]; exact c1 z
    · exact Or.inr h
  · intro z; rw [d2 z, d1 z]
  · intro z h1a h2a h3a c hc
    by_cases hzt : (t.tasks z).status = (s.tasks z).status
    · exact e2 z (by rw [hzt]; exact h1a) h2a (by rw [d1 z]; exact h3a) c hc
    · have hts : (t.tasks z).status = st := by
        rcases a1 z with h | h
        · exact absurd h hzt
        · exact h
      have hnc := e1 z h1a hts h3a c hc
      rcases a2 c with h | h
      · rw [h]; exact hnc
      · rw [h]; exact hst

/-- Effect of a completed `doneChildLoop` pass, given the effect of the
recursive calls: the frame, plus no listed child is left Active. -/
theorem doneChildLoop_post (G : TaskGraph) (today : Date) (st : TStatus)
    (dd : Option Date) (hst : st ≠ TStatus.active)
    (rec : Nat → SState → Option SState)
    (hrec : ∀ c t t', rec c t = some t' → DonePost G today st dd c t t') :
    ∀ l s s', doneChildLoop rec l s = some s' →
      DoneFrame G today st dd s s' ∧
      ∀ c ∈ l, (s'.tasks c).status ≠ TStatus.active := by
  intro l
  induction l with
  | nil =>
    intro s s' h
    simp only [doneChildLoop, Option.some_inj] at h
    subst h
    exact ⟨doneFrame_refl G today st dd hst s, by simp⟩
  | cons c cs ih =>
    intro s s' h
    rw [doneChildLoop] at h
    by_cases hg : (s.tasks c).status = TStatus.active
    · rw [if_pos hg] at h
      obtain ⟨t, h1, h2⟩ := Option.bind_eq_some.mp h
      obtain ⟨frest, mrest⟩ := ih t s' h2
      obtain ⟨pc, pxc, _⟩ := hrec c s t h1
      refine ⟨doneFrame_trans hst pc frest, ?_⟩
      intro c' hc'
      rcases List.mem_cons.mp hc' with rfl | hcs
      · rcases frest.1 c' with h | h
        · rw [h, pxc.1]; exact hst
        · rw [h]; exact hst
      · exact mrest c' hcs
    · rw [if_neg hg] at h
      obtain ⟨t, h1, h2⟩ := Option.bind_eq_some.mp h
      obtain rfl := Option.some_inj.mp h1
      obtain ⟨frest, mrest⟩ := ih s s' h2
      refine ⟨frest, ?_⟩
      intro c' hc'
      rcases List.mem_cons.mp hc' with rfl | hcs
      · rcases frest.1 c' with h | h
        · rw [h]; exact hg
        · rw [h]; exact hst
      · exact mrest c' hcs

/-- Master effect lemma for the Done/Dismiss direction of `set_status`:
a completed run establishes `DonePost`. -/
theorem set_status_done_post (G : TaskGraph) (today : Date) (st : TStatus)
    (dd : Option Date) (hst : st = TStatus.done ∨ st = TStatus.dismissed) :
    ∀ f x propagation init s s',
      set_status G today f x (some st) dd propagation init s = some s' →
      DonePost G today st dd x s s' := by
  have hst' : st ≠ TStatus.active := by rcases hst with rfl | rfl <;> simp
  have hstT : (st = TStatus.done ∨ st = TStatus.dismissed) = True :=
    eq_true hst
  intro f
  induction f with
  | zero => intro x propagation init s s' h; simp [set_status] at h
  | succ f ih =>
    intro x propagation init s s' h
    rw [set_status] at h
    rw [if_pos hst] at h
    have hCf := fun z => canDel_write_fields s x z
    have hFsC : DoneFrame G today st dd s
        (s.setTask x { s.tasks x with can_be_deleted := false }) := by
      refine ⟨fun z => Or.inl (hCf z).1, fun z hz => absurd (hCf z).1 hz,
        fun z => Or.inl (hCf z).2.1, fun z => (hCf z).2.2,
        fun z h1 h2 _ c _ => ?_⟩
      exact absurd (h2.symm.trans ((hCf z).1.trans h1)) hst'
    by_cases hL : ((s.setTask x
        { s.tasks x with can_be_deleted := false }).tasks x).loaded = true
    · rw [if_pos hL] at h
      obtain ⟨s1, hloop, hfin⟩ := Option.bind_eq_some.mp h
      by_cases hd : (s1.tasks x).recurring = true ∧ propagation = false ∧
          is_parent_recurring G s1 x = false
      · rw [if_pos hd] at hfin; simp at hfin
      rw [if_neg hd] at hfin
      obtain ⟨s2, heq, hk⟩ := Option.bind_eq_some.mp hfin
      obtain rfl := Option.some_inj.mp heq
      have hbig := Option.some_inj.mp hk
      have hstat : ∀ z, s'.tasks z =
          if z = x then { s1.tasks x with
            status := st, closed_date := dd.getD today }
          else s1.tasks z := by
        intro z
        rw [← hbig]
        by_cases hz : z = x <;>
          cases init <;> simp [SState.sync, SState.setTask, hz, hstT]
      obtain ⟨hFL, hML⟩ := doneChildLoop_post G today st dd hst' _
        (fun c t t' hc => ih c true false t t' hc) (G.children x) _ s1 hloop
      have hF2 : DoneFrame G today st dd s s1 :=
        doneFrame_trans hst' hFsC hFL
      refine ⟨⟨?_, ?_, ?_, ?_, ?_⟩, ⟨?_, ?_⟩, ?_⟩
      · intro z
        rw [hstat z]
        by_cases hz : z = x
        · rw [if_pos hz]; exact Or.inr rfl
        · rw [if_neg hz]; exact hF2.1 z
      · intro z hz
        rw [hstat z] at hz ⊢
        by_cases hzx : z = x
        · rw [if_pos hzx]
        · rw [if_neg hzx] at hz ⊢
          exact hF2.2.1 z hz
      · intro z
        rw [hstat z]
        by_cases hzx : z = x
        · rw [if_pos hzx]; exact Or.inr rfl
        · rw [if_neg hzx]; exact hF2.2.2.1 z
      · intro z
        rw [hstat z]
        by_cases hzx : z = x
        · subst hzx; rw [if_pos rfl]
          exact hF2.2.2.2.1 z
        · rw [if_neg hzx]; exact hF2.2.2.2.1 z
      · intro z h1 h2 h3 c hc
        rw [hstat c]
        rw [hstat z] at h2
        by_cases hcx : c = x
        · rw [if_pos hcx]
          intro hcon
          exact hst' (by simpa using hcon)
        rw [if_neg hcx]
        by_cases hzx : z = x
        · subst hzx
          have hml := hML c hc
          intro hcon; exact hml (by rw [hcon])
        · rw [if_neg hzx] at h2
          have hfc := hF2.2.2.2.2 z h1 h2 h3 c hc
          intro hcon; exact hfc (by rw [hcon])
      · rw [hstat x, if_pos rfl]
      · rw [hstat x, if_pos rfl]
      · intro _ c hc
        rw [hstat c]
        by_cases hcx : c = x
        · rw [if_pos hcx]
          intro hcon
          exact hst' (by simpa using hcon)
        · rw [if_neg hcx]
          exact hML c hc
    · rw [if_neg hL] at h
      obtain ⟨s1, heq, hk⟩ := Option.bind_eq_some.mp h
      obtain rfl := Option.some_inj.mp heq
      have hbig := Option.some_inj.mp hk
      have hLs : (s.tasks x).loaded = false := by
        rw [← (hCf x).2.2]
        simpa using hL
      have hstat : ∀ z, s'.tasks z =
          if z = x then { s.tasks x with
            can_be_deleted := false, status := st,
            closed_date := dd.getD today }
          else s.tasks z := by
        intro z
        rw [← hbig]
        by_cases hz : z = x <;>
          cases init <;> simp [SState.sync, SState.setTask, hz, hstT]
      refine ⟨⟨?_, ?_, ?_, ?_, ?_⟩, ⟨?_, ?_⟩, ?_⟩
      · intro z
        rw [hstat z]
        by_cases hz : z = x
        · rw [if_pos hz]; exact Or.inr rfl
        · rw [if_neg hz]; exact Or.inl rfl
      · intro z hz
        rw [hstat z] at hz ⊢
        by_cases hzx : z = x
        · rw [if_pos hzx]
        · rw [if_neg hzx] at hz; exact absurd rfl hz
      · intro z
        rw [hstat z]
        by_cases hzx : z = x
        · rw [if_pos hzx]; exact Or.inr rfl
        · rw [if_neg hzx]; exact Or.inl rfl
      · intro z
        rw [hstat z]
        by_cases hzx : z = x
        · subst hzx; rw [if_pos rfl]
        · rw [if_neg hzx]
      · intro z h1 h2 h3 c hc
        rw [hstat z] at h2
        by_cases hzx : z = x
        · subst hzx
          exact absurd h3 (by rw [hLs]; simp)
        · rw [if_neg hzx] at h2
          exact absurd (h2.symm.trans h1) hst'
      · rw [hstat x, if_pos rfl]
      · rw [hstat x, if_pos rfl]
      · intro hLx _ _
        exact absurd hLx (by rw [hLs]; simp)


/-- Along a chain of Active children with loaded interior nodes, a
completed Done/Dismiss cascade reaches and closes every node. -/
theorem activeChain_done (G : TaskGraph) (today : Date) (st : TStatus)
    (dd : Option Date) (hst' : st ≠ TStatus.active) (x : Nat)
    (s s' : SState) (post : DonePost G today st dd x s s') :
    ∀ a g, ActiveChain G s a g →
      ((s.tasks a).loaded = true ∧
        (a = x ∨ ((s.tasks a).status = TStatus.active ∧
          (s'.tasks a).status = st))) →
      (s'.tasks g).status = st ∧
        (s'.tasks g).closed_date = dd.getD today := by
  have hchild : ∀ a, (s.tasks a).loaded = true →
      (a = x ∨ ((s.tasks a).status = TStatus.active ∧
        (s'.tasks a).status = st)) →
      ∀ c ∈ G.children a, (s'.tasks c).status ≠ TStatus.active := by
    intro a hld ha c hc
    rcases ha with rfl | ⟨hact, hst2⟩
    · exact post.2.2 hld c hc
    · exact post.1.2.2.2.2 a hact hst2 hld c hc
  have hclose : ∀ a c, (s.tasks a).loaded = true →
      (a = x ∨ ((s.tasks a).status = TStatus.active ∧
        (s'.tasks a).status = st)) →
      c ∈ G.children a → (s.tasks c).status = TStatus.active →
      (s'.tasks c).status = st ∧
        (s'.tasks c).closed_date = dd.getD today := by
    intro a c hld ha hc hact
    have hna := hchild a hld ha c hc
    have hs : (s'.tasks c).status = st := by
      rcases post.1.1 c with h | h
      · exact absurd (h.trans hact) hna
      · exact h
    refine ⟨hs, post.1.2.1 c ?_⟩
    rw [hs, hact]
    exact hst'
  intro a g hchain
  induction hchain with
  | base hc hact => exact fun ha => hclose _ _ ha.1 ha.2 hc hact
  | step hc hact hld _ ih =>
    intro ha
    have hcc := hclose _ _ ha.1 ha.2 hc hact
    exact ih ⟨hld, Or.inr ⟨hact, hcc.1⟩⟩

/-- C3 (amended).  Marking a loaded task Done (or Dismissed) closes, when
the call returns, the task itself and every descendant reachable from it
through a chain of currently-Active children whose interior nodes are
loaded, setting on each the supplied done date or else today's date.  (The
cascade only recurses into Active children and only loaded tasks cascade,
so descendants hidden behind an already-closed or unloaded intermediate
node are not reached — see the counterexample.) -/
theorem c3_done_cascade_closes_active_chains (G : TaskGraph) (today : Date)
    (st : TStatus) (dd : Option Date) (f x : Nat) (propagation init : Bool)
    (s s' : SState)
    (hst : st = TStatus.done ∨ st = TStatus.dismissed)
    (hx : (s.tasks x).loaded = true)
    (h : set_status G today f x (some st) dd propagation init s = some s') :
    ((s'.tasks x).status = st ∧
      (s'.tasks x).closed_date = dd.getD today) ∧
    ∀ g, ActiveChain G s x g →
      (s'.tasks g).status = st ∧
        (s'.tasks g).closed_date = dd.getD today := by
  have hst' : st ≠ TStatus.active := by rcases hst with rfl | rfl <;> simp
  have post := set_status_done_post G today st dd hst f x propagation init
    s s' h
  exact ⟨post.2.1, fun g hg =>
    activeChain_done G today st dd hst' x s s' post x g hg ⟨hx, Or.inl rfl⟩⟩

theorem c3_done_cascade_closes_active_chains_witness :
    ((TStatus.done = TStatus.done ∨ TStatus.done = TStatus.dismissed) ∧
      (((⟨fun _ => ⟨TStatus.active, Date.nodate, true, false, false⟩, [],
        []⟩ : SState)).tasks 1).loaded = true) ∧
    (set_status
      (TaskGraph.mk (fun a => if a = 2 then [1] else if a = 3 then [2]
        else []) (fun a => if a = 1 then [2] else if a = 2 then [3]
        else []))
      (Date.concrete 7) 10 1 (some TStatus.done) none false false
      ⟨fun _ => ⟨TStatus.active, Date.nodate, true, false, false⟩, [],
        []⟩).map
      (fun s => ((s.tasks 3).status, (s.tasks 3).closed_date))
      = some (TStatus.done, Date.concrete 7) := by
  refine ⟨⟨Or.inl rfl, by decide⟩, ?_⟩
  rcases hrun : set_status
      (TaskGraph.mk (fun a => if a = 2 then [1] else if a = 3 then [2]
        else []) (fun a => if a = 1 then [2] else if a = 2 then [3]
        else []))
      (Date.concrete 7) 10 1 (some TStatus.done) none false false
      ⟨fun _ => ⟨TStatus.active, Date.nodate, true, false, false⟩, [],
        []⟩ with _ | s'
  · exact Option.noConfusion hrun
  · have hres := (c3_done_cascade_closes_active_chains _ (Date.concrete 7)
      TStatus.done none 10 1 false false _ s' (Or.inl rfl) (by decide)
      hrun).2 3
      (ActiveChain.step (a := 1) (c := 2) (g := 3) (by decide) (by decide)
        (by decide) (ActiveChain.base (by decide) (by decide)))
    simp [hres.1, hres.2]

/-- C3 counterexample to the claim as stated: task 1 (loaded, Active) has
the loaded, currently-Active descendant 3, but 3 sits below the
already-Done child 2, so the cascade never reaches it: after
`set_status(1, Done)` task 3 is still Active. -/
theorem c3_done_cascade_counterexample :
    ((3 ∈ (fun a => if a = 1 then [2] else if a = 2 then [3] else
      ([] : List Nat)) 2) ∧
      (2 ∈ (fun a => if a = 1 then [2] else if a = 2 then [3] else
        ([] : List Nat)) 1) ∧
      (((⟨fun z => if z = 2 then ⟨TStatus.done, Date.nodate, true, false,
          false⟩ else ⟨TStatus.active, Date.nodate, true, false, false⟩,
        [], []⟩ : SState)).tasks 3).status = TStatus.active ∧
      (((⟨fun z => if z = 2 then ⟨TStatus.done, Date.nodate, true, false,
          false⟩ else ⟨TStatus.active, Date.nodate, true, false, false⟩,
        [], []⟩ : SState)).tasks 3).loaded = true ∧
      (((⟨fun z => if z = 2 then ⟨TStatus.done, Date.nodate, true, false,
          false⟩ else ⟨TStatus.active, Date.nodate, true, false, false⟩,
        [], []⟩ : SState)).tasks 1).loaded = true) ∧
    (set_status
      (TaskGraph.mk (fun a => if a = 2 then [1] else if a = 3 then [2]
        else []) (fun a => if a = 1 then [2] else if a = 2 then [3]
        else []))
      (Date.concrete 7) 10 1 (some TStatus.done) none false false
      ⟨fun z => if z = 2 then ⟨TStatus.done, Date.nodate, true, false,
          false⟩ else ⟨TStatus.active, Date.nodate, true, false, false⟩,
        [], []⟩).map (fun s => (s.tasks 3).status)
      = some TStatus.active := by
  exact ⟨⟨by decide, by decide, by decide, by decide, by decide⟩, by decide⟩

theorem activeFrame_refl (G : TaskGraph) (s : SState) :
    ActiveFrame G s s := by
  refine ⟨fun z => Or.inl rfl, fun z => rfl, fun z => rfl,
    fun z h1 h2 _ p _ _ => ?_⟩
  rcases h1 with h | h <;> rw [h2] at h <;> simp at h

/-- The reactivation effect frame composes. -/
theorem activeFrame_trans {G : TaskGraph} {s t s' : SState}
    (h1 : ActiveFrame G s t) (h2 : ActiveFrame G t s') :
    ActiveFrame G s s' := by
  obtain ⟨a1, b1, c1, d1⟩ := h1
  obtain ⟨a2, b2, c2, d2⟩ := h2
  refine ⟨?_, ?_, ?_, ?_⟩
  · intro z
    rcases a2 z with h | h
    · rw [h]; exact a1 z
    · exact Or.inr h
  · intro z; rw [b2 z, b1 z]
  · intro z; rw [c2 z, c1 z]
  · intro z h1a h2a h3a p hp hpl
    by_cases hzt : (t.tasks z).status = (s.tasks z).status
    · exact d2 z (by rw [hzt]; exact h1a) h2a (by rw [c1 z]; exact h3a) p hp
        hpl
    · have hta : (t.tasks z).status = TStatus.active := by
        rcases a1 z with h | h
        · exact absurd h hzt
        · exact h
      have hfc := d1 z h1a hta h3a p hp (by rw [← c2 p]; exact hpl)
      rcases a2 p with h | h
      · rw [h]; exact hfc
      · rw [h]; exact ⟨by simp, by simp⟩

/-- Effect of a completed `activeParentLoop` pass, given the effect of the
recursive calls: the frame, plus no listed loaded parent is left
Done/Dismissed, plus every change is at a listed parent or one of its
ancestors. -/
theorem activeParentLoop_post (G : TaskGraph)
    (rec : Nat → SState → Option SState)
    (hrec : ∀ p t t', rec p t = some t' → ActivePost G p t t') :
    ∀ l s s', activeParentLoop rec l s = some s' →
      ActiveFrame G s s' ∧
      (∀ p ∈ l, (s'.tasks p).loaded = true →
        (s'.tasks p).status ≠ TStatus.done ∧
          (s'.tasks p).status ≠ TStatus.dismissed) ∧
      (∀ z, (s'.tasks z).status ≠ (s.tasks z).status →
        ∃ p ∈ l, z = p ∨ AncFrom G.parents (G.parents p) z) := by
  intro l
  induction l with
  | nil =>
    intro s s' h
    simp only [activeParentLoop, Option.some_inj] at h
    subst h
    exact ⟨activeFrame_refl G s, by simp, fun z hz => absurd rfl hz⟩
  | cons p ps ih =>
    intro s s' h
    rw [activeParentLoop] at h
    by_cases hg : (s.tasks p).loaded = true ∧
        ((s.tasks p).status = TStatus.done ∨
          (s.tasks p).status = TStatus.dismissed)
    · rw [if_pos hg] at h
      obtain ⟨t, h1, h2⟩ := Option.bind_eq_some.mp h
      obtain ⟨frest, mrest, lrest⟩ := ih t s' h2
      obtain ⟨pf, pact, ploc⟩ := hrec p s t h1
      refine ⟨activeFrame_trans pf frest, ?_, ?_⟩
      · intro p' hp' _
        rcases List.mem_cons.mp hp' with rfl | hps
        · have : (s'.tasks p').status = TStatus.active := by
            rcases frest.1 p' with h | h
            · rw [h]; exact pact
            · exact h
          rw [this]; exact ⟨by simp, by simp⟩
        · exact mrest p' hps (by assumption)
      · intro z hz
        by_cases hzt : (t.tasks z).status = (s.tasks z).status
        · obtain ⟨q, hq, hzq⟩ := lrest z (by rw [hzt]; exact hz)
          exact ⟨q, List.mem_cons_of_mem _ hq, hzq⟩
        · obtain hl := ploc z hzt
          exact ⟨p, List.mem_cons_self _ _, hl⟩
    · rw [if_neg hg] at h
      obtain ⟨t, h1, h2⟩ := Option.bind_eq_some.mp h
      obtain rfl := Option.some_inj.mp h1
      obtain ⟨frest, mrest, lrest⟩ := ih s s' h2
      refine ⟨frest, ?_, ?_⟩
      · intro p' hp' hpl
        rcases List.mem_cons.mp hp' with rfl | hps
        · have hnds : ¬ ((s.tasks p').status = TStatus.done ∨
              (s.tasks p').status = TStatus.dismissed) := by
            intro hds
            exact hg ⟨by rw [← frest.2.2.1 p']; exact hpl, hds⟩
          rcases frest.1 p' with h | h
          · rw [h]; exact ⟨fun hc => hnds (Or.inl hc),
              fun hc => hnds (Or.inr hc)⟩
          · rw [h]; exact ⟨by simp, by simp⟩
        · exact mrest p' hps hpl
      · intro z hz
        obtain ⟨q, hq, hzq⟩ := lrest z hz
        exact ⟨q, List.mem_cons_of_mem _ hq, hzq⟩

/-- Master effect lemma for the reactivation direction of `set_status`:
a completed run with target Active establishes `ActivePost`. -/
theorem set_status_active_post (G : TaskGraph) (today : Date) :
    ∀ f (dd : Option Date) x propagation init s s',
      set_status G today f x (some TStatus.active) dd propagation init s
        = some s' →
      ActivePost G x s s' := by
  intro f
  induction f with
  | zero => intro dd x propagation init s s' h; simp [set_status] at h
  | succ f ih =>
    intro dd x propagation init s s' h
    rw [set_status] at h
    rw [if_neg (by simp : ¬ (TStatus.active = TStatus.done ∨
      TStatus.active = TStatus.dismissed))] at h
    have hCf := fun z => canDel_write_fields s x z
    have hFsC : ActiveFrame G s
        (s.setTask x { s.tasks x with can_be_deleted := false }) := by
      refine ⟨fun z => Or.inl (hCf z).1, fun z => (hCf z).2.1,
        fun z => (hCf z).2.2, fun z h1 h2 _ p _ _ => ?_⟩
      rcases h1 with h | h <;> rw [← (hCf z).1, h2] at h <;> simp at h
    by_cases hL : ((s.setTask x
        { s.tasks x with can_be_deleted := false }).tasks x).loaded = true
    · rw [if_pos hL] at h
      by_cases hold : (s.tasks x).status = TStatus.done ∨
          (s.tasks x).status = TStatus.dismissed
      · rw [if_pos ⟨rfl, hold⟩] at h
        obtain ⟨s1, hloop, hfin⟩ := Option.bind_eq_some.mp h
        have hbig := Option.some_inj.mp hfin
        have hstat : ∀ z, s'.tasks z =
            if z = x then { s1.tasks x with status := TStatus.active }
            else s1.tasks z := by
          intro z
          rw [← hbig]
          by_cases hz : z = x <;>
            cases init <;> simp [SState.sync, SState.setTask, hz]
        obtain ⟨hFL, hML, hLoc⟩ := activeParentLoop_post G _
          (fun p t t' hc => ih none p false false t t' hc) (G.parents x) _ s1
          hloop
        have hF2 : ActiveFrame G s s1 := activeFrame_trans hFsC hFL
        refine ⟨⟨?_, ?_, ?_, ?_⟩, ?_, ?_⟩
        · intro z
          rw [hstat z]
          by_cases hz : z = x
          · rw [if_pos hz]; exact Or.inr rfl
          · rw [if_neg hz]; exact hF2.1 z
        · intro z
          rw [hstat z]
          by_cases hz : z = x
          · subst hz; rw [if_pos rfl]
            exact hF2.2.1 z
          · rw [if_neg hz]; exact hF2.2.1 z
        · intro z
          rw [hstat z]
          by_cases hz : z = x
          · subst hz; rw [if_pos rfl]
            exact hF2.2.2.1 z
          · rw [if_neg hz]; exact hF2.2.2.1 z
        · intro z h1 h2 h3 p hp hpl
          rw [hstat p]
          by_cases hpx : p = x
          · rw [if_pos hpx]; exact ⟨by simp, by simp⟩
          rw [if_neg hpx]
          rw [hstat p] at hpl
          rw [if_neg hpx] at hpl
          by_cases hzx : z = x
          · subst hzx
            exact hML p hp hpl
          · rw [hstat z, if_neg hzx] at h2
            exact hF2.2.2.2 z h1 h2 h3 p hp hpl
        · rw [hstat x, if_pos rfl]
        · intro z hz
          rw [hstat z] at hz
          by_cases hzx : z = x
          · exact Or.inl hzx
          · rw [if_neg hzx] at hz
            rw [← (hCf z).1] at hz
            obtain ⟨q, hq, hzq⟩ := hLoc z hz
            rcases hzq with rfl | hanc
            · exact Or.inr (AncFrom.here hq)
            · exact Or.inr (AncFrom.step hq hanc)
      · rw [if_neg (fun hh => hold hh.2)] at h
        obtain ⟨s1, heq, hk⟩ := Option.bind_eq_some.mp h
        obtain rfl := Option.some_inj.mp heq
        have hbig := Option.some_inj.mp hk
        have hstat : ∀ z, s'.tasks z =
            if z = x then { s.tasks x with can_be_deleted := false, status := TStatus.active }
            else s.tasks z := by
          intro z
          rw [← hbig]
          by_cases hz : z = x <;>
            cases init <;> simp [SState.sync, SState.setTask, hz]
        refine ⟨⟨?_, ?_, ?_, ?_⟩, ?_, ?_⟩
        · intro z
          rw [hstat z]
          by_cases hz : z = x
          · rw [if_pos hz]; exact Or.inr rfl
          · rw [if_neg hz]; exact Or.inl rfl
        · intro z
          rw [hstat z]
          by_cases hz : z = x
          · subst hz; rw [if_pos rfl]
          · rw [if_neg hz]
        · intro z
          rw [hstat z]
          by_cases hz : z = x
          · subst hz; rw [if_pos rfl]
          · rw [if_neg hz]
        · intro z h1 h2 h3 p hp hpl
          rw [hstat z] at h2
          by_cases hzx : z = x
          · subst hzx
            rw [if_pos rfl] at h2
            exact absurd h1 hold
          · rw [if_neg hzx] at h2
            rcases h1 with h | h <;> rw [h2] at h <;> simp at h
        · rw [hstat x, if_pos rfl]
        · intro z hz
          rw [hstat z] at hz
          by_cases hzx : z = x
          · exact Or.inl hzx
          · rw [if_neg hzx] at hz
            exact absurd rfl hz
    · rw [if_neg hL] at h
      obtain ⟨s1, heq, hk⟩ := Option.bind_eq_some.mp h
      obtain rfl := Option.some_inj.mp heq
      have hbig := Option.some_inj.mp hk
      have hLs : (s.tasks x).loaded = false := by
        rw [← (hCf x).2.2]
        simpa using hL
      have hstat : ∀ z, s'.tasks z =
          if z = x then { s.tasks x with can_be_deleted := false, status := TStatus.active }
          else s.tasks z := by
        intro z
        rw [← hbig]
        by_cases hz : z = x <;>
          cases init <;> simp [SState.sync, SState.setTask, hz]
      refine ⟨⟨?_, ?_, ?_, ?_⟩, ?_, ?_⟩
      · intro z
        rw [hstat z]
        by_cases hz : z = x
        · rw [if_pos hz]; exact Or.inr rfl
        · rw [if_neg hz]; exact Or.inl rfl
      · intro z
        rw [hstat z]
        by_cases hz : z = x
        · subst hz; rw [if_pos rfl]
        · rw [if_neg hz]
      · intro z
        rw [hstat z]
        by_cases hz : z = x
        · subst hz; rw [if_pos rfl]
        · rw [if_neg hz]
      · intro z h1 h2 h3 p hp hpl
        rw [hstat z] at h2
        by_cases hzx : z = x
        · subst hzx
          exact absurd h3 (by rw [hLs]; simp)
        · rw [if_neg hzx] at h2
          rcases h1 with h | h <;> rw [h2] at h <;> simp at h
      · rw [hstat x, if_pos rfl]
      · intro z hz
        rw [hstat z] at hz
        by_cases hzx : z = x
        · exact Or.inl hzx
        · rw [if_neg hzx] at hz
          exact absurd rfl hz

/-- Along a chain of loaded Done/Dismissed parents, a completed
reactivation reaches and reactivates every node. -/
theorem closedParentChain_active (G : TaskGraph) (x : Nat) (s s' : SState)
    (post : ActivePost G x s s')
    (hxs : (s.tasks x).status = TStatus.done ∨
      (s.tasks x).status = TStatus.dismissed)
    (hxl : (s.tasks x).loaded = true) :
    ∀ a q, ClosedParentChain G s a q →
      (a = x ∨ (((s.tasks a).status = TStatus.done ∨
          (s.tasks a).status = TStatus.dismissed) ∧
        (s.tasks a).loaded = true ∧
        (s'.tasks a).status = TStatus.active)) →
      (s'.tasks q).status = TStatus.active := by
  have hone : ∀ a q, (a = x ∨ (((s.tasks a).status = TStatus.done ∨
      (s.tasks a).status = TStatus.dismissed) ∧
      (s.tasks a).loaded = true ∧
      (s'.tasks a).status = TStatus.active)) →
      q ∈ G.parents a → (s.tasks q).loaded = true →
      ((s.tasks q).status = TStatus.done ∨
        (s.tasks q).status = TStatus.dismissed) →
      (s'.tasks q).status = TStatus.active := by
    intro a q ha hq hql hqs
    have hfc : (s'.tasks q).status ≠ TStatus.done ∧
        (s'.tasks q).status ≠ TStatus.dismissed := by
      rcases ha with rfl | ⟨has, hal, haa⟩
      · exact post.1.2.2.2 a hxs post.2.1 hxl q hq
          (by rw [post.1.2.2.1 q]; exact hql)
      · exact post.1.2.2.2 a has haa hal q hq
          (by rw [post.1.2.2.1 q]; exact hql)
    rcases post.1.1 q with h | h
    · rcases hqs with hh | hh
      · exact absurd (h.trans hh) hfc.1
      · exact absurd (h.trans hh) hfc.2
    · exact h
  intro a q hchain
  induction hchain with
  | base hq hql hqs => exact fun ha => hone _ _ ha hq hql hqs
  | step hq hql hqs _ ih =>
    intro ha
    exact ih (Or.inr ⟨hqs, hql, hone _ _ ha hq hql hqs⟩)

theorem ancFrom_nil {nbr : Nat → List Nat} {b : Nat} :
    ¬ AncFrom nbr [] b := by
  intro h
  cases h <;> simp_all

theorem ancFrom_singleton {nbr : Nat → List Nat} {p b : Nat}
    (h : AncFrom nbr [p] b) : b = p ∨ AncFrom nbr (nbr p) b := by
  cases h with
  | here hp => simp at hp; exact Or.inl hp
  | step hp tail => simp at hp; subst hp; exact Or.inr tail

/-- Ancestor chains compose. -/
theorem ancFrom_trans {nbr : Nat → List Nat} :
    ∀ {l : List Nat} {b c : Nat}, AncFrom nbr l b →
      AncFrom nbr (nbr b) c → AncFrom nbr l c := by
  intro l b c h1
  induction h1 with
  | here hp => exact fun h2 => AncFrom.step hp h2
  | step hp _ ih => exact fun h2 => AncFrom.step hp (ih h2)

/-- With consistent parent/child lists, a downward chain from `a` to `y`
is an upward chain from `y` to `a`. -/
theorem ancFrom_flip (G : TaskGraph) (hWF : G.WF) :
    ∀ {l : List Nat} {y : Nat}, AncFrom G.children l y →
      ∀ a, l = G.children a → AncFrom G.parents (G.parents y) a := by
  intro l y h
  induction h with
  | here hp =>
    intro a hl
    subst hl
    exact AncFrom.here ((hWF _ a).mpr hp)
  | step hp _ ih =>
    intro a hl
    subst hl
    exact ancFrom_trans (ih _ rfl) (AncFrom.here ((hWF _ a).mpr hp))

/-- C4.  Reactivating a loaded Done/Dismissed task walks upward: every
ancestor reachable through a chain of loaded Done/Dismissed parents
becomes Active; every task other than the reactivated one and its
ancestors keeps its status (and its closed date), so siblings are
untouched; and descendants — which by acyclicity are never ancestors — are
never auto-reactivated. -/
theorem c4_reactivation_bubbles_up_only (G : TaskGraph) (today : Date)
    (dd : Option Date) (f x : Nat) (propagation init : Bool)
    (s s' : SState) (hWF : G.WF) (hAc : G.Acyclic)
    (hxl : (s.tasks x).loaded = true)
    (hxs : (s.tasks x).status = TStatus.done ∨
      (s.tasks x).status = TStatus.dismissed)
    (h : set_status G today f x (some TStatus.active) dd propagation init s
      = some s') :
    (∀ q, ClosedParentChain G s x q →
      (s'.tasks q).status = TStatus.active) ∧
    (∀ y, y ≠ x → ¬ AncFrom G.parents (G.parents x) y →
      (s'.tasks y).status = (s.tasks y).status ∧
        (s'.tasks y).closed_date = (s.tasks y).closed_date) ∧
    (∀ y, AncFrom G.children (G.children x) y →
      (s'.tasks y).status = (s.tasks y).status) := by
  have post := set_status_active_post G today f dd x propagation init s s' h
  refine ⟨?_, ?_, ?_⟩
  · intro q hchain
    exact closedParentChain_active G x s s' post hxs hxl x q hchain
      (Or.inl rfl)
  · intro y hy hanc
    constructor
    · by_contra hne'
      rcases post.2.2 y hne' with rfl | ha
      · exact hy rfl
      · exact hanc ha
    · exact post.1.2.1 y
  · intro y hdesc
    have hflip := ancFrom_flip G hWF hdesc x rfl
    by_contra hne'
    rcases post.2.2 y hne' with rfl | ha
    · exact hAc y hflip
    · exact hAc y (ancFrom_trans hflip ha)

theorem c4_reactivation_bubbles_up_only_witness :
    ((TaskGraph.mk (fun a => if a = 2 then [1] else if a = 3 then [2]
        else []) (fun a => if a = 1 then [2] else if a = 2 then [3]
        else [])).WF ∧
      (TaskGraph.mk (fun a => if a = 2 then [1] else if a = 3 then [2]
        else []) (fun a => if a = 1 then [2] else if a = 2 then [3]
        else [])).Acyclic ∧
      (((⟨fun _ => ⟨TStatus.done, Date.nodate, true, false, false⟩, [],
        []⟩ : SState)).tasks 2).loaded = true ∧
      ((((⟨fun _ => ⟨TStatus.done, Date.nodate, true, false, false⟩, [],
        []⟩ : SState)).tasks 2).status = TStatus.done ∨
        (((⟨fun _ => ⟨TStatus.done, Date.nodate, true, false, false⟩, [],
        []⟩ : SState)).tasks 2).status = TStatus.dismissed)) ∧
    (set_status
      (TaskGraph.mk (fun a => if a = 2 then [1] else if a = 3 then [2]
        else []) (fun a => if a = 1 then [2] else if a = 2 then [3]
        else []))
      (Date.concrete 7) 10 2 (some TStatus.active) none false false
      ⟨fun _ => ⟨TStatus.done, Date.nodate, true, false, false⟩, [],
        []⟩).map
      (fun s => ((s.tasks 1).status, (s.tasks 3).status))
      = some (TStatus.active, TStatus.done) := by
  have hWF : (TaskGraph.mk (fun a => if a = 2 then [1] else
      if a = 3 then [2] else []) (fun a => if a = 1 then [2] else
      if a = 2 then [3] else [])).WF := by
    intro a p
    by_cases ha2 : a = 2 <;> by_cases ha3 : a = 3 <;>
      by_cases hp1 : p = 1 <;> by_cases hp2 : p = 2 <;>
      simp_all [TaskGraph.WF]
  have hAc : (TaskGraph.mk (fun a => if a = 2 then [1] else
      if a = 3 then [2] else []) (fun a => if a = 1 then [2] else
      if a = 2 then [3] else [])).Acyclic := by
    intro z hanc
    by_cases hz2 : z = 2
    · subst hz2
      simp only [show (if (2 : Nat) = 2 then [1] else
        if (2 : Nat) = 3 then [2] else []) = [1] from rfl] at hanc
      rcases ancFrom_singleton hanc with h | h
      · simp at h
      · exact ancFrom_nil (by simpa using h)
    by_cases hz3 : z = 3
    · subst hz3
      simp only [show (if (3 : Nat) = 2 then [1] else
        if (3 : Nat) = 3 then [2] else []) = [2] from rfl] at hanc
      rcases ancFrom_singleton hanc with h | h
      · simp at h
      · simp only [show (if (2 : Nat) = 2 then [1] else
          if (2 : Nat) = 3 then [2] else []) = [1] from rfl] at h
        rcases ancFrom_singleton h with h2 | h2
        · simp at h2
        · exact ancFrom_nil (by simpa using h2)
    · have hnil : (if z = 2 then [1] else if z = 3 then [2] else
        ([] : List Nat)) = [] := by simp [hz2, hz3]
      exact ancFrom_nil (by simpa [hnil] using hanc)
  refine ⟨⟨hWF, hAc, by decide, Or.inl (by decide)⟩, ?_⟩
  rcases hrun : set_status
      (TaskGraph.mk (fun a => if a = 2 then [1] else if a = 3 then [2]
        else []) (fun a => if a = 1 then [2] else if a = 2 then [3]
        else []))
      (Date.concrete 7) 10 2 (some TStatus.active) none false false
      ⟨fun _ => ⟨TStatus.done, Date.nodate, true, false, false⟩, [],
        []⟩ with _ | s'
  · exact Option.noConfusion hrun
  · have hres := c4_reactivation_bubbles_up_only _ (Date.concrete 7) none
      10 2 false false _ s' hWF hAc (by decide) (Or.inl (by decide)) hrun
    have h1 := hres.1 1 (ClosedParentChain.base (by decide) (by decide)
      (Or.inl (by decide)))
    have h3 := hres.2.2 3 (AncFrom.here (by decide))
    show some ((s'.tasks 1).status, (s'.tasks 3).status)
      = some (TStatus.active, TStatus.done)
    rw [h1, h3]

/-- C7 (amended).  Calling `set_status` with a `None`/empty status skips
the child propagation and the closing-date logic, emits no status-changed
event and leaves the status, closed date and every other field unchanged —
except that `can_be_deleted` is unconditionally cleared (the first line of
the method) — and the final `sync()` still runs. -/
theorem c7_none_status_only_clears_can_be_deleted (G : TaskGraph)
    (today : Date) (f x : Nat) (dd : Option Date) (prop init : Bool)
    (s : SState) :
    set_status G today (f + 1) x none dd prop init s =
      some ((s.setTask x { s.tasks x with can_be_deleted := false }).sync x) :=
  rfl

/-- C7 counterexample to the claim as stated: on a fresh deletable task,
`set_status(None)` does change a task field other than the notify step —
`can_be_deleted` flips from true to false. -/
theorem c7_none_status_counterexample :
    ((set_status (TaskGraph.mk (fun _ => []) (fun _ => []))
        (Date.concrete 7) 5 1 none none false false
        ⟨fun _ => ⟨.active, .nodate, true, true, false⟩, [], []⟩).map
      (fun s => (s.tasks 1).can_be_deleted) = some false) ∧
    ((⟨fun _ => ⟨.active, .nodate, true, true, false⟩, [], []⟩
        : SState).tasks 1).can_be_deleted = true :=
  ⟨by decide, by decide⟩

/-! ## `set_due_date` machinery (C1, C9) -/

theorem DState.setDue_due (s : DState) (x : Nat) (d : Date) (z : Nat) :
    (s.setDue x d).due z = if z = x then d else s.due z := rfl

theorem blt_ge_stable {d v v' : Date} (hw : v' = v ∨ v' = d)
    (h : Date.blt v d = false) : Date.blt v' d = false := by
  rcases hw with rfl | rfl
  · exact h
  · exact Date.blt_irrefl _

theorem blt_le_stable {d v v' : Date} (hw : v' = v ∨ v' = d)
    (h : Date.blt d v = false) : Date.blt d v' = false := by
  rcases hw with rfl | rfl
  · exact h
  · exact Date.blt_irrefl _

theorem startprop_stable {d v v' : Date} (hw : v' = v ∨ v' = d)
    (h : v.is_fuzzy = false → Date.blt d v = false) :
    v'.is_fuzzy = false → Date.blt d v' = false := by
  rcases hw with rfl | rfl
  · exact h
  · exact fun _ => Date.blt_irrefl _

theorem dueWrites_refl (d : Date) (s : DState) : DueWrites d s s :=
  ⟨fun _ => Or.inl rfl, fun _ => Or.inl rfl⟩

theorem dueWrites_trans {d : Date} {s t s' : DState}
    (h1 : DueWrites d s t) (h2 : DueWrites d t s') : DueWrites d s s' := by
  constructor
  · intro z
    rcases h2.1 z with h | h
    · rw [h]; exact h1.1 z
    · exact Or.inr h
  · intro z
    rcases h2.2 z with h | h
    · rw [h]; exact h1.2 z
    · exact Or.inr h

/-- `recursive_sync` only appends to the sync trace. -/
theorem recursive_sync_frame (G : TaskGraph) :
    ∀ f x s s', recursive_sync G f x s = some s' →
      s'.due = s.due ∧ s'.start = s.start := by
  intro f
  induction f with
  | zero => intro x s s' h; simp [recursive_sync] at h
  | succ f ih =>
    have hloop : ∀ l (s s' : DState),
        syncLoop (recursive_sync G f) l s = some s' →
        s'.due = s.due ∧ s'.start = s.start := by
      intro l
      induction l with
      | nil =>
        intro s s' h
        simp only [syncLoop, Option.some_inj] at h
        subst h; exact ⟨rfl, rfl⟩
      | cons c cs ihl =>
        intro s s' h
        rw [syncLoop] at h
        obtain ⟨t, h1, h2⟩ := Option.bind_eq_some.mp h
        have hA := ih c s t h1
        have hB := ihl t s' h2
        exact ⟨hB.1.trans hA.1, hB.2.trans hA.2⟩
    intro x s s' h
    rw [recursive_sync] at h
    have hx := hloop (G.children x) { s with syncs := s.syncs ++ [x] } s' h
    exact ⟨hx.1, hx.2⟩

theorem skipFrom_nil {nbr : Nat → List Nat} {dm : Nat → Date} {b : Nat} :
    ¬ SkipFrom nbr dm [] b := by
  intro h
  cases h <;> simp_all

theorem skipFrom_subset {nbr : Nat → List Nat} {dm : Nat → Date}
    {l l' : List Nat} {b : Nat} (hsub : ∀ q ∈ l, q ∈ l') :
    SkipFrom nbr dm l b → SkipFrom nbr dm l' b := by
  intro h
  cases h with
  | here hp hnf => exact SkipFrom.here (hsub _ hp) hnf
  | skip hp hf tail => exact SkipFrom.skip (hsub _ hp) hf tail

/-- Members of a `skipFuzzy` result are non-fuzzy and skip-reachable. -/
theorem skipFuzzy_sound {nbr : Nat → List Nat} {dm : Nat → Date} :
    ∀ f l L, skipFuzzy nbr f dm l = some L →
      ∀ b ∈ L, (dm b).is_fuzzy = false ∧ SkipFrom nbr dm l b := by
  intro f
  induction f with
  | zero => intro l L h; simp [skipFuzzy] at h
  | succ f ih =>
    intro l L h b hb
    match l with
    | [] =>
      simp only [skipFuzzy, Option.some_inj] at h
      subst h; simp at hb
    | p :: ps =>
      rw [skipFuzzy] at h
      by_cases hf : (dm p).is_fuzzy
      · rw [if_pos hf] at h
        obtain ⟨h1, hh1, h2⟩ := Option.bind_eq_some.mp h
        obtain ⟨t1, ht1, h3⟩ := Option.bind_eq_some.mp h2
        obtain rfl := Option.some_inj.mp h3
        rcases List.mem_append.mp hb with hbh | hbt
        · obtain ⟨hnf, hchain⟩ := ih _ _ hh1 b hbh
          exact ⟨hnf, SkipFrom.skip (List.mem_cons_self _ _) hf hchain⟩
        · obtain ⟨hnf, hchain⟩ := ih _ _ ht1 b hbt
          exact ⟨hnf, skipFrom_subset
            (fun q hq => List.mem_cons_of_mem _ hq) hchain⟩
      · rw [if_neg hf] at h
        obtain ⟨h1, hh1, h2⟩ := Option.bind_eq_some.mp h
        obtain rfl := Option.some_inj.mp hh1
        obtain ⟨t1, ht1, h3⟩ := Option.bind_eq_some.mp h2
        obtain rfl := Option.some_inj.mp h3
        rcases List.mem_append.mp hb with hbh | hbt
        · rw [List.mem_singleton] at hbh
          subst hbh
          exact ⟨Bool.not_eq_true _ ▸ hf, SkipFrom.here
            (List.mem_cons_self _ _) (Bool.not_eq_true _ ▸ hf)⟩
        · obtain ⟨hnf, hchain⟩ := ih _ _ ht1 b hbt
          exact ⟨hnf, skipFrom_subset
            (fun q hq => List.mem_cons_of_mem _ hq) hchain⟩

/-- A non-fuzzy list member lands in the `skipFuzzy` result. -/
theorem skipFuzzy_mem_nonfuzzy {nbr : Nat → List Nat} {dm : Nat → Date} :
    ∀ f l L, skipFuzzy nbr f dm l = some L →
      ∀ p ∈ l, (dm p).is_fuzzy = false → p ∈ L := by
  intro f
  induction f with
  | zero => intro l L h; simp [skipFuzzy] at h
  | succ f ih =>
    intro l L h p hp hnf
    match l with
    | [] => simp at hp
    | q :: qs =>
      rw [skipFuzzy] at h
      rcases List.mem_cons.mp hp with rfl | hps
      · rw [if_neg (by rw [hnf]; simp)] at h
        obtain ⟨h1, hh1, h2⟩ := Option.bind_eq_some.mp h
        obtain rfl := Option.some_inj.mp hh1
        obtain ⟨t1, ht1, h3⟩ := Option.bind_eq_some.mp h2
        obtain rfl := Option.some_inj.mp h3
        exact List.mem_append.mpr (Or.inl (List.mem_singleton.mpr rfl))
      · by_cases hf : (dm q).is_fuzzy
        · rw [if_pos hf] at h
          obtain ⟨h1, hh1, h2⟩ := Option.bind_eq_some.mp h
          obtain ⟨t1, ht1, h3⟩ := Option.bind_eq_some.mp h2
          obtain rfl := Option.some_inj.mp h3
          exact List.mem_append.mpr (Or.inr (ih _ _ ht1 p hps hnf))
        · rw [if_neg hf] at h
          obtain ⟨h1, hh1, h2⟩ := Option.bind_eq_some.mp h
          obtain rfl := Option.some_inj.mp hh1
          obtain ⟨t1, ht1, h3⟩ := Option.bind_eq_some.mp h2
          obtain rfl := Option.some_inj.mp h3
          exact List.mem_append.mpr (Or.inr (ih _ _ ht1 p hps hnf))

/-- A fuzzy list member contributes its whole recursive result. -/
theorem skipFuzzy_mem_fuzzy {nbr : Nat → List Nat} {dm : Nat → Date} :
    ∀ f l L, skipFuzzy nbr f dm l = some L →
      ∀ p ∈ l, (dm p).is_fuzzy = true →
      ∃ f' L', skipFuzzy nbr f' dm (nbr p) = some L' ∧ ∀ b ∈ L', b ∈ L := by
  intro f
  induction f with
  | zero => intro l L h; simp [skipFuzzy] at h
  | succ f ih =>
    intro l L h p hp hf
    match l with
    | [] => simp at hp
    | q :: qs =>
      rw [skipFuzzy] at h
      rcases List.mem_cons.mp hp with rfl | hps
      · rw [if_pos hf] at h
        obtain ⟨h1, hh1, h2⟩ := Option.bind_eq_some.mp h
        obtain ⟨t1, ht1, h3⟩ := Option.bind_eq_some.mp h2
        obtain rfl := Option.some_inj.mp h3
        exact ⟨f, h1, hh1, fun b hb =>
          List.mem_append.mpr (Or.inl hb)⟩
      · by_cases hfq : (dm q).is_fuzzy
        · rw [if_pos hfq] at h
          obtain ⟨h1, hh1, h2⟩ := Option.bind_eq_some.mp h
          obtain ⟨t1, ht1, h3⟩ := Option.bind_eq_some.mp h2
          obtain rfl := Option.some_inj.mp h3
          obtain ⟨f', L', hL', hsub⟩ := ih _ _ ht1 p hps hf
          exact ⟨f', L', hL', fun b hb =>
            List.mem_append.mpr (Or.inr (hsub b hb))⟩
        · rw [if_neg hfq] at h
          obtain ⟨h1, hh1, h2⟩ := Option.bind_eq_some.mp h
          obtain rfl := Option.some_inj.mp hh1
          obtain ⟨t1, ht1, h3⟩ := Option.bind_eq_some.mp h2
          obtain rfl := Option.some_inj.mp h3
          obtain ⟨f', L', hL', hsub⟩ := ih _ _ ht1 p hps hf
          exact ⟨f', L', hL', fun b hb =>
            List.mem_append.mpr (Or.inr (hsub b hb))⟩

/-- Every skip-reachable task lands in a completed `skipFuzzy` result. -/
theorem skipFuzzy_complete {nbr : Nat → List Nat} {dm : Nat → Date}
    {l : List Nat} {b : Nat} (h : SkipFrom nbr dm l b) :
    ∀ f L, skipFuzzy nbr f dm l = some L → b ∈ L := by
  induction h with
  | here hp hnf => exact fun f L hL => skipFuzzy_mem_nonfuzzy f _ _ hL _ hp hnf
  | skip hp hf _ ih =>
    intro f L hL
    obtain ⟨f', L', hL', hsub⟩ := skipFuzzy_mem_fuzzy f _ _ hL _ hp hf
    exact hsub _ (ih f' L' hL')

/-- `skipFuzzy` depends on the date map only through fuzziness. -/
theorem skipFuzzy_fuzz_congr {nbr : Nat → List Nat} {dm1 dm2 : Nat → Date}
    (hfz : ∀ z, (dm1 z).is_fuzzy = (dm2 z).is_fuzzy) :
    ∀ f l, skipFuzzy nbr f dm1 l = skipFuzzy nbr f dm2 l := by
  intro f
  induction f with
  | zero => intro l; rfl
  | succ f ih =>
    intro l
    match l with
    | [] => rfl
    | p :: ps =>
      rw [skipFuzzy, skipFuzzy, hfz p, ih (nbr p), ih ps]

/-- `SkipFrom` depends on the date map only through fuzziness. -/
theorem skipFrom_fuzz_congr {nbr : Nat → List Nat} {dm1 dm2 : Nat → Date}
    (hfz : ∀ z, (dm1 z).is_fuzzy = (dm2 z).is_fuzzy) :
    ∀ {l b}, SkipFrom nbr dm1 l b → SkipFrom nbr dm2 l b := by
  intro l b h
  induction h with
  | here hp hnf => exact SkipFrom.here hp (by rw [← hfz]; exact hnf)
  | skip hp hf _ ih => exact SkipFrom.skip hp (by rw [← hfz]; exact hf) ih

theorem skipFrom_anc {nbr : Nat → List Nat} {dm : Nat → Date}
    {l : List Nat} {b : Nat} : SkipFrom nbr dm l b → AncFrom nbr l b := by
  intro h
  induction h with
  | here hp _ => exact AncFrom.here hp
  | skip hp _ _ ih => exact AncFrom.step hp ih

/-- Duality core: an upward skip-chain from `q` to `b` makes `q` (when
non-fuzzy) a downward skip-target of `b`, and (when fuzzy) makes `b` see
through `q` to everything `q`'s children reach. -/
theorem skipFrom_up_down (G : TaskGraph) (hWF : G.WF) (dm : Nat → Date) :
    ∀ {l b}, SkipFrom G.parents dm l b → ∀ q, l = G.parents q →
      ((dm q).is_fuzzy = false →
        SkipFrom G.children dm (G.children b) q) ∧
      ((dm q).is_fuzzy = true →
        ∀ z, SkipFrom G.children dm (G.children q) z →
          SkipFrom G.children dm (G.children b) z) := by
  intro l b h
  induction h with
  | here hp hnf =>
    intro q hl
    subst hl
    constructor
    · intro hq
      exact SkipFrom.here ((hWF q _).mp hp) hq
    · intro hq z hz
      exact SkipFrom.skip ((hWF q _).mp hp) hq hz
  | skip hp hf _ ih =>
    intro q hl
    subst hl
    have htrans := (ih _ rfl).2 hf
    constructor
    · intro hq
      exact htrans q (SkipFrom.here ((hWF q _).mp hp) hq)
    · intro hq z hz
      exact htrans z (SkipFrom.skip ((hWF q _).mp hp) hq hz)

/-- Duality: a nearest non-fuzzy ancestor relation flips into a nearest
non-fuzzy descendant relation. -/
theorem upChain_downChain {G : TaskGraph} (hWF : G.WF) {dm : Nat → Date}
    {a b : Nat} (hnf : (dm a).is_fuzzy = false) (h : UpChain G dm a b) :
    DownChain G dm b a :=
  (skipFrom_up_down G hWF dm h a rfl).1 hnf

/-- Decomposition of a skip-chain when exactly `x` turned from non-fuzzy
to fuzzy: either the chain avoids `x`, or it decomposes at `x`. -/
theorem skipFrom_unfuzz {nbr : Nat → List Nat} {dm dm' : Nat → Date}
    {x : Nat} (hoff : ∀ z, z ≠ x → (dm z).is_fuzzy = (dm' z).is_fuzzy)
    (hx : (dm x).is_fuzzy = false) (hx' : (dm' x).is_fuzzy = true) :
    ∀ {l b}, SkipFrom nbr dm' l b →
      SkipFrom nbr dm l b ∨
        (SkipFrom nbr dm l x ∧ SkipFrom nbr dm' (nbr x) b) := by
  intro l b h
  induction h with
  | @here l1 p hp hnf =>
    have hpx : p ≠ x := fun hh => by rw [hh, hx'] at hnf; cases hnf
    exact Or.inl (SkipFrom.here hp (by rw [hoff _ hpx]; exact hnf))
  | @skip l1 p b1 hp hf tail ih =>
    by_cases hpx : p = x
    · subst hpx
      exact Or.inr ⟨SkipFrom.here hp hx, tail⟩
    · rcases ih with hl | ⟨hlx, htail⟩
      · exact Or.inl (SkipFrom.skip hp (by rw [hoff _ hpx]; exact hf) hl)
      · exact Or.inr ⟨SkipFrom.skip hp
          (by rw [hoff _ hpx]; exact hf) hlx, htail⟩

/-- Transfer of a skip-chain between maps agreeing off `x`, when `x` is
non-fuzzy in the source map: the chain ends at `x` or transfers whole. -/
theorem skipFrom_transfer_offx {nbr : Nat → List Nat} {dm1 dm2 : Nat → Date}
    {x : Nat} (hoff : ∀ z, z ≠ x → (dm1 z).is_fuzzy = (dm2 z).is_fuzzy)
    (hx1 : (dm1 x).is_fuzzy = false) :
    ∀ {l b}, SkipFrom nbr dm1 l b → b = x ∨ SkipFrom nbr dm2 l b := by
  intro l b h
  induction h with
  | @here l1 p hp hnf =>
    by_cases hpx : p = x
    · exact Or.inl hpx
    · exact Or.inr (SkipFrom.here hp (by rw [← hoff _ hpx]; exact hnf))
  | @skip l1 p b1 hp hf tail ih =>
    have hpx : p ≠ x := fun hh => by rw [hh, hx1] at hf; cases hf
    rcases ih with rfl | hl
    · exact Or.inl rfl
    · exact Or.inr (SkipFrom.skip hp (by rw [← hoff _ hpx]; exact hf) hl)

theorem upRepaired_stable {G : TaskGraph} {dmR : Nat → Date} {d : Date}
    {z : Nat} {t t' : DState} (hW : DueWrites d t t')
    (h : UpRepaired G dmR d z t) : UpRepaired G dmR d z t' :=
  fun b hb => blt_ge_stable (hW.1 b) (h b hb)

theorem downRepaired_stable {G : TaskGraph} {dmR : Nat → Date} {d : Date}
    {z : Nat} {t t' : DState} (hW : DueWrites d t t')
    (h : DownRepaired G dmR d z t) : DownRepaired G dmR d z t' :=
  fun c hc => ⟨blt_le_stable (hW.1 c) (h c hc).1,
    startprop_stable (hW.2 c) (h c hc).2⟩

theorem upRepaired_of_eq {G : TaskGraph} {dmR : Nat → Date} {d : Date}
    {z : Nat} {t t' : DState} (hdue : t'.due = t.due)
    (h : UpRepaired G dmR d z t) : UpRepaired G dmR d z t' :=
  fun b hb => by rw [congrFun hdue b]; exact h b hb

theorem downRepaired_of_eq {G : TaskGraph} {dmR : Nat → Date} {d : Date}
    {z : Nat} {t t' : DState} (hdue : t'.due = t.due)
    (hstart : t'.start = t.start) (h : DownRepaired G dmR d z t) :
    DownRepaired G dmR d z t' :=
  fun c hc => by
    rw [congrFun hdue c, congrFun hstart c]; exact h c hc

/-- Effect of a completed ancestor pass of `set_due_date`, given the
effect of the recursive calls. -/
theorem dueParentLoop_post (G : TaskGraph) (dmR : Nat → Date) (d : Date)
    (rec : Nat → DState → Option DState)
    (hrec : ∀ p t t', (dmR p).is_fuzzy = false →
      (∀ z, ((t.due z).is_fuzzy = (dmR z).is_fuzzy)) →
      rec p t = some t' → DuePost G dmR p d t t') :
    ∀ l s s', (∀ p ∈ l, (dmR p).is_fuzzy = false) →
      (∀ z, ((s.due z).is_fuzzy = (dmR z).is_fuzzy)) →
      dueParentLoop rec d l s = some s' →
      DueWrites d s s' ∧
      (∀ z, s'.due z ≠ s.due z →
        (s.due z).is_fuzzy = false ∧ s'.due z = d) ∧
      (∀ z, ((s'.due z).is_fuzzy = (dmR z).is_fuzzy)) ∧
      (∀ p ∈ l, Date.blt (s'.due p) d = false) ∧
      (∀ z, s'.due z = d → s.due z ≠ d →
        UpRepaired G dmR d z s' ∧ DownRepaired G dmR d z s') := by
  intro l
  induction l with
  | nil =>
    intro s s' _ hfz h
    simp only [dueParentLoop, Option.some_inj] at h
    subst h
    exact ⟨dueWrites_refl d s, fun z hz => absurd rfl hz, hfz, by simp,
      fun z h1 h2 => absurd h1 h2⟩
  | cons p ps ih =>
    intro s s' hmem hfz h
    rw [dueParentLoop] at h
    by_cases hg : Date.blt (s.due p) d = true
    · rw [if_pos hg] at h
      obtain ⟨t, h1, h2⟩ := Option.bind_eq_some.mp h
      have post := hrec p s t (hmem p (List.mem_cons_self _ _)) hfz h1
      have hfzt : ∀ z, ((t.due z).is_fuzzy = (dmR z).is_fuzzy) :=
        post.2.2.2.1
      have rest := ih t s'
        (fun q hq => hmem q (List.mem_cons_of_mem _ hq)) hfzt h2
      refine ⟨dueWrites_trans post.1 rest.1, ?_, rest.2.2.1, ?_, ?_⟩
      · intro z hz
        by_cases hzt : t.due z = s.due z
        · have hr := rest.2.1 z (by rw [hzt]; exact hz)
          exact ⟨by rw [← hzt]; exact hr.1, hr.2⟩
        · by_cases hzp : z = p
          · subst hzp
            refine ⟨by rw [hfz z]; exact hmem z (List.mem_cons_self _ _),
              ?_⟩
            rcases rest.1.1 z with hh | hh
            · rw [hh, post.2.1]
            · exact hh
          · have hm3 := post.2.2.1 z hzp hzt
            have htd : t.due z = d := by
              rcases post.1.1 z with hh | hh
              · exact absurd hh hzt
              · exact hh
            refine ⟨hm3, ?_⟩
            rcases rest.1.1 z with hh | hh
            · rw [hh, htd]
            · exact hh
      · intro q hq
        rcases List.mem_cons.mp hq with rfl | hqs
        · exact blt_ge_stable (rest.1.1 q)
            (by rw [post.2.1]; exact Date.blt_irrefl d)
        · exact rest.2.2.2.1 q hqs
      · intro z h1z h2z
        by_cases hzt : t.due z = d
        · have hpair := post.2.2.2.2.2 z hzt h2z
          exact ⟨upRepaired_stable rest.1 hpair.1,
            downRepaired_stable rest.1 hpair.2⟩
        · exact rest.2.2.2.2 z h1z hzt
    · rw [if_neg hg] at h
      obtain ⟨t, h1, h2⟩ := Option.bind_eq_some.mp h
      obtain rfl := Option.some_inj.mp h1
      have rest := ih s s'
        (fun q hq => hmem q (List.mem_cons_of_mem _ hq)) hfz h2
      refine ⟨rest.1, rest.2.1, rest.2.2.1, ?_, rest.2.2.2.2⟩
      intro q hq
      rcases List.mem_cons.mp hq with rfl | hqs
      · exact blt_ge_stable (rest.1.1 q) (Bool.not_eq_true _ ▸ hg)
      · exact rest.2.2.2.1 q hqs

theorem set_start_date_fields (t : DState) (c : Nat) (d : Date) :
    (t.set_start_date c d).due = t.due ∧
    (∀ z, (t.set_start_date c d).start z =
      if z = c then d else t.start z) :=
  ⟨rfl, fun _ => rfl⟩

/-- Effect of a completed descendant pass of `set_due_date`, given the
effect of the recursive calls. -/
theorem dueChildLoop_post (G : TaskGraph) (dmR : Nat → Date) (d : Date)
    (rec : Nat → DState → Option DState)
    (hrec : ∀ p t t', (dmR p).is_fuzzy = false →
      (∀ z, ((t.due z).is_fuzzy = (dmR z).is_fuzzy)) →
      rec p t = some t' → DuePost G dmR p d t t') :
    ∀ l s s', (∀ c ∈ l, (dmR c).is_fuzzy = false) →
      (∀ z, ((s.due z).is_fuzzy = (dmR z).is_fuzzy)) →
      dueChildLoop rec d l s = some s' →
      DueWrites d s s' ∧
      (∀ z, s'.due z ≠ s.due z →
        (s.due z).is_fuzzy = false ∧ s'.due z = d) ∧
      (∀ z, ((s'.due z).is_fuzzy = (dmR z).is_fuzzy)) ∧
      (∀ c ∈ l, Date.blt d (s'.due c) = false ∧
        ((s'.start c).is_fuzzy = false → Date.blt d (s'.start c) = false)) ∧
      (∀ z, s'.due z = d → s.due z ≠ d →
        UpRepaired G dmR d z s' ∧ DownRepaired G dmR d z s') := by
  intro l
  induction l with
  | nil =>
    intro s s' _ hfz h
    simp only [dueChildLoop, Option.some_inj] at h
    subst h
    exact ⟨dueWrites_refl d s, fun z hz => absurd rfl hz, hfz, by simp,
      fun z h1 h2 => absurd h1 h2⟩
  | cons c cs ih =>
    intro s s' hmem hfz h
    rw [dueChildLoop] at h
    by_cases hg : Date.blt d (s.due c) = true
    case pos =>
      rw [if_pos hg] at h
      obtain ⟨t, h1, h2⟩ := Option.bind_eq_some.mp h
      dsimp only [] at h2
      have post := hrec c s t (hmem c (List.mem_cons_self _ _)) hfz h1
      have hfzt : ∀ z, ((t.due z).is_fuzzy = (dmR z).is_fuzzy) :=
        post.2.2.2.1
      by_cases hsg : (t.start c).is_fuzzy = false ∧
          Date.blt d (t.start c) = true
      · rw [if_pos hsg] at h2
        have hW2 : DueWrites d t (t.set_start_date c d) := by
          refine ⟨fun z => Or.inl rfl, fun z => ?_⟩
          rw [(set_start_date_fields t c d).2 z]
          by_cases hz : z = c
          · rw [if_pos hz]; exact Or.inr rfl
          · rw [if_neg hz]; exact Or.inl rfl
        have rest := ih (t.set_start_date c d) s'
          (fun q hq => hmem q (List.mem_cons_of_mem _ hq)) hfzt h2
        refine ⟨dueWrites_trans post.1 (dueWrites_trans hW2 rest.1),
          ?_, rest.2.2.1, ?_, ?_⟩
        · intro z hz
          by_cases hzt : t.due z = s.due z
          · have hr := rest.2.1 z (by
              show s'.due z ≠ t.due z
              rw [hzt]; exact hz)
            exact ⟨by rw [← hzt]; exact hr.1, hr.2⟩
          · have htd : t.due z = d := by
              rcases post.1.1 z with hh | hh
              · exact absurd hh hzt
              · exact hh
            have hs1 : s'.due z = d := by
              rcases rest.1.1 z with hh | hh
              · rw [hh]; exact htd
              · exact hh
            by_cases hzc : z = c
            · subst hzc
              exact ⟨by rw [hfz z]; exact hmem z (List.mem_cons_self _ _),
                hs1⟩
            · exact ⟨post.2.2.1 z hzc hzt, hs1⟩
        · intro q hq
          rcases List.mem_cons.mp hq with rfl | hqs
          · constructor
            · refine blt_le_stable (rest.1.1 q) ?_
              show Date.blt d (t.due q) = false
              rw [post.2.1]; exact Date.blt_irrefl d
            · refine startprop_stable (rest.1.2 q) ?_
              rw [(set_start_date_fields t q d).2 q, if_pos rfl]
              exact fun _ => Date.blt_irrefl d
          · exact rest.2.2.2.1 q hqs
        · intro z h1z h2z
          by_cases hzt : t.due z = d
          · have hpair := post.2.2.2.2.2 z hzt h2z
            exact ⟨upRepaired_stable rest.1
                (upRepaired_stable hW2 hpair.1),
              downRepaired_stable rest.1
                (downRepaired_stable hW2 hpair.2)⟩
          · exact rest.2.2.2.2 z h1z hzt
      · rw [if_neg hsg] at h2
        have rest := ih t s'
          (fun q hq => hmem q (List.mem_cons_of_mem _ hq)) hfzt h2
        refine ⟨dueWrites_trans post.1 rest.1, ?_, rest.2.2.1, ?_, ?_⟩
        · intro z hz
          by_cases hzt : t.due z = s.due z
          · have hr := rest.2.1 z (by rw [hzt]; exact hz)
            exact ⟨by rw [← hzt]; exact hr.1, hr.2⟩
          · have htd : t.due z = d := by
              rcases post.1.1 z with hh | hh
              · exact absurd hh hzt
              · exact hh
            have hs1 : s'.due z = d := by
              rcases rest.1.1 z with hh | hh
              · rw [hh]; exact htd
              · exact hh
            by_cases hzc : z = c
            · subst hzc
              exact ⟨by rw [hfz z]; exact hmem z (List.mem_cons_self _ _),
                hs1⟩
            · exact ⟨post.2.2.1 z hzc hzt, hs1⟩
        · intro q hq
          rcases List.mem_cons.mp hq with rfl | hqs
          · constructor
            · refine blt_le_stable (rest.1.1 q) ?_
              rw [post.2.1]; exact Date.blt_irrefl d
            · refine startprop_stable (rest.1.2 q) ?_
              intro hA
              have hB : ¬ (Date.blt d (t.start q) = true) :=
                fun hB => hsg ⟨hA, hB⟩
              exact Bool.not_eq_true _ ▸ hB
          · exact rest.2.2.2.1 q hqs
        · intro z h1z h2z
          by_cases hzt : t.due z = d
          · have hpair := post.2.2.2.2.2 z hzt h2z
            exact ⟨upRepaired_stable rest.1 hpair.1,
              downRepaired_stable rest.1 hpair.2⟩
          · exact rest.2.2.2.2 z h1z hzt
    case neg =>
      rw [if_neg hg] at h
      obtain ⟨t, h1, h2⟩ := Option.bind_eq_some.mp h
      dsimp only [] at h2
      obtain rfl := Option.some_inj.mp h1
      by_cases hsg : (s.start c).is_fuzzy = false ∧
          Date.blt d (s.start c) = true
      · rw [if_pos hsg] at h2
        have hW2 : DueWrites d s (s.set_start_date c d) := by
          refine ⟨fun z => Or.inl rfl, fun z => ?_⟩
          rw [(set_start_date_fields s c d).2 z]
          by_cases hz : z = c
          · rw [if_pos hz]; exact Or.inr rfl
          · rw [if_neg hz]; exact Or.inl rfl
        have rest := ih (s.set_start_date c d) s'
          (fun q hq => hmem q (List.mem_cons_of_mem _ hq)) hfz h2
        refine ⟨dueWrites_trans hW2 rest.1, rest.2.1, rest.2.2.1, ?_,
          rest.2.2.2.2⟩
        intro q hq
        rcases List.mem_cons.mp hq with rfl | hqs
        · constructor
          · exact blt_le_stable (rest.1.1 q) (Bool.not_eq_true _ ▸ hg)
          · refine startprop_stable (rest.1.2 q) ?_
            rw [(set_start_date_fields s q d).2 q, if_pos rfl]
            exact fun _ => Date.blt_irrefl d
        · exact rest.2.2.2.1 q hqs
      · rw [if_neg hsg] at h2
        have rest := ih s s'
          (fun q hq => hmem q (List.mem_cons_of_mem _ hq)) hfz h2
        refine ⟨rest.1, rest.2.1, rest.2.2.1, ?_, rest.2.2.2.2⟩
        intro q hq
        rcases List.mem_cons.mp hq with rfl | hqs
        · constructor
          · exact blt_le_stable (rest.1.1 q) (Bool.not_eq_true _ ▸ hg)
          · refine startprop_stable (rest.1.2 q) ?_
            intro hA
            have hB : ¬ (Date.blt d (s.start q) = true) :=
              fun hB => hsg ⟨hA, hB⟩
            exact Bool.not_eq_true _ ▸ hB
        · exact rest.2.2.2.1 q hqs

/-- Master effect lemma for `set_due_date` with a non-fuzzy date: a
completed run establishes `DuePost` relative to any reference map agreeing
in fuzziness with the state after the head assignment. -/
theorem set_due_date_post (G : TaskGraph) (d : Date)
    (hd : d.is_fuzzy = false) :
    ∀ f x t t' (dmR : Nat → Date),
      (∀ z, (((t.setDue x d).due z).is_fuzzy = (dmR z).is_fuzzy)) →
      set_due_date G f x d t = some t' →
      DuePost G dmR x d t t' := by
  intro f
  induction f with
  | zero => intro x t t' dmR _ h; simp [set_due_date] at h
  | succ f ih =>
    intro x t t' dmR hfz h
    rw [set_due_date] at h
    rw [if_neg (by rw [hd]; simp : ¬ d.is_fuzzy = true)] at h
    obtain ⟨P, hP, h2⟩ := Option.bind_eq_some.mp h
    obtain ⟨sa, hPL, h3⟩ := Option.bind_eq_some.mp h2
    obtain ⟨C, hC, h4⟩ := Option.bind_eq_some.mp h3
    obtain ⟨s1, hCL, h5⟩ := Option.bind_eq_some.mp h4
    dsimp only [] at h5
    have hrec : ∀ p u u', (dmR p).is_fuzzy = false →
        (∀ z, ((u.due z).is_fuzzy = (dmR z).is_fuzzy)) →
        set_due_date G f p d u = some u' → DuePost G dmR p d u u' := by
      intro p u u' hpnf hufz hcall
      refine ih p u u' dmR ?_ hcall
      intro z
      rw [DState.setDue_due]
      by_cases hz : z = p
      · rw [if_pos hz, hz, hd, hpnf]
      · rw [if_neg hz]; exact hufz z
    have hPmem : ∀ p ∈ P, (dmR p).is_fuzzy = false := by
      intro p hp
      have hs := (skipFuzzy_sound f _ _ hP p hp).1
      rw [← hfz p]; exact hs
    have hPL' := dueParentLoop_post G dmR d _ hrec P (t.setDue x d) sa
      hPmem hfz hPL
    have hfza : ∀ z, ((sa.due z).is_fuzzy = (dmR z).is_fuzzy) :=
      hPL'.2.2.1
    have hCmem : ∀ c ∈ C, (dmR c).is_fuzzy = false := by
      intro c hc
      have hs := (skipFuzzy_sound f _ _ hC c hc).1
      rw [← hfza c]; exact hs
    have hCL' := dueChildLoop_post G dmR d _ hrec C sa s1 hCmem hfza hCL
    have hfr : t'.due = s1.due ∧ t'.start = s1.start := by
      by_cases hne : t.due x ≠ d
      · rw [if_pos hne] at h5
        exact recursive_sync_frame G f x s1 t' h5
      · rw [if_neg hne] at h5
        obtain rfl := Option.some_inj.mp h5
        exact ⟨rfl, rfl⟩
    have hWsync : DueWrites d s1 t' :=
      ⟨fun z => Or.inl (congrFun hfr.1 z),
        fun z => Or.inl (congrFun hfr.2 z)⟩
    have hW0 : DueWrites d t (t.setDue x d) := by
      refine ⟨fun z => ?_, fun z => Or.inl rfl⟩
      rw [DState.setDue_due]
      by_cases hz : z = x
      · rw [if_pos hz]; exact Or.inr rfl
      · rw [if_neg hz]; exact Or.inl rfl
    have hWall : DueWrites d t t' :=
      dueWrites_trans hW0 (dueWrites_trans hPL'.1
        (dueWrites_trans hCL'.1 hWsync))
    have hdx0 : (t.setDue x d).due x = d := by
      rw [DState.setDue_due, if_pos rfl]
    have hdxa : sa.due x = d := by
      rcases hPL'.1.1 x with hh | hh
      · rw [hh]; exact hdx0
      · exact hh
    have hdx1 : s1.due x = d := by
      rcases hCL'.1.1 x with hh | hh
      · rw [hh]; exact hdxa
      · exact hh
    have hdx : t'.due x = d := by rw [congrFun hfr.1 x]; exact hdx1
    have hup : UpRepaired G dmR d x t' := by
      intro b hb
      have hb0 : SkipFrom G.parents (t.setDue x d).due (G.parents x) b :=
        skipFrom_fuzz_congr (fun z => (hfz z).symm) hb
      have hbP := skipFuzzy_complete hb0 f P hP
      have h1 := hPL'.2.2.2.1 b hbP
      exact blt_ge_stable (hWsync.1 b) (blt_ge_stable (hCL'.1.1 b) h1)
    have hdown : DownRepaired G dmR d x t' := by
      intro c hc
      have hc0 : SkipFrom G.children sa.due (G.children x) c :=
        skipFrom_fuzz_congr (fun z => (hfza z).symm) hc
      have hcC := skipFuzzy_complete hc0 f C hC
      have h1 := hCL'.2.2.2.1 c hcC
      exact ⟨blt_le_stable (hWsync.1 c) h1.1,
        startprop_stable (hWsync.2 c) h1.2⟩
    refine ⟨hWall, hdx, ?_, ?_, ⟨hup, hdown⟩, ?_⟩
    · intro z hzx hzc
      have hz0 : (t.setDue x d).due z = t.due z := by
        rw [DState.setDue_due, if_neg hzx]
      by_cases hza : sa.due z = (t.setDue x d).due z
      · have hzc1 : s1.due z ≠ sa.due z := by
          intro hcon
          exact hzc (by rw [congrFun hfr.1 z, hcon, hza, hz0])
        have hm := (hCL'.2.1 z hzc1).1
        rw [hza, hz0] at hm
        exact hm
      · have hm := (hPL'.2.1 z hza).1
        rw [hz0] at hm
        exact hm
    · intro z
      rw [congrFun hfr.1 z]
      exact hCL'.2.2.1 z
    · intro z h1z h2z
      have hz1 : s1.due z = d := by rw [← congrFun hfr.1 z]; exact h1z
      by_cases hzx : z = x
      · subst hzx
        exact ⟨hup, hdown⟩
      · have hz0ne : (t.setDue x d).due z = t.due z := by
          rw [DState.setDue_due, if_neg hzx]
        by_cases hza : sa.due z = d
        · have hpair := hPL'.2.2.2.2 z hza (by rw [hz0ne]; exact h2z)
          exact ⟨upRepaired_stable hWsync
              (upRepaired_stable hCL'.1 hpair.1),
            downRepaired_stable hWsync
              (downRepaired_stable hCL'.1 hpair.2)⟩
        · have hpair := hCL'.2.2.2.2 z hz1 hza
          exact ⟨upRepaired_stable hWsync hpair.1,
            downRepaired_stable hWsync hpair.2⟩

/-- The endpoint of a skip-chain is non-fuzzy. -/
theorem skipFrom_endpoint {nbr : Nat → List Nat} {dm : Nat → Date}
    {l : List Nat} {b : Nat} (h : SkipFrom nbr dm l b) :
    (dm b).is_fuzzy = false := by
  induction h with
  | here _ hnf => exact hnf
  | skip _ _ _ ih => exact ih

/-- A completed `set_due_date` with a fuzzy date only stores the date and
re-syncs: due dates beyond `x` and all start dates are untouched. -/
theorem set_due_date_fuzzy_frame (G : TaskGraph) {d : Date}
    (hd : d.is_fuzzy = true) {f x : Nat} {s s' : DState}
    (h : set_due_date G f x d s = some s') :
    s'.due = (s.setDue x d).due ∧ s'.start = s.start := by
  match f with
  | 0 => simp [set_due_date] at h
  | f+1 =>
    rw [set_due_date] at h
    rw [if_pos hd] at h
    obtain ⟨s1, h1, h2⟩ := Option.bind_eq_some.mp h
    obtain rfl := Option.some_inj.mp h1
    dsimp only [] at h2
    by_cases hne : s.due x ≠ d
    · rw [if_pos hne] at h2
      have hfr := recursive_sync_frame G f x _ s' h2
      exact ⟨hfr.1, hfr.2⟩
    · rw [if_neg hne] at h2
      obtain rfl := Option.some_inj.mp h2
      exact ⟨rfl, rfl⟩

/-- Re-storing the date a task already has is the identity on the state. -/
theorem DState.setDue_self {s : DState} {x : Nat} {d : Date}
    (h : s.due x = d) : s.setDue x d = s := by
  obtain ⟨du, st, sy⟩ := s
  simp only [DState.setDue]
  congr 1
  funext z
  by_cases hz : z = x
  · rw [if_pos hz, hz]; exact h.symm
  · rw [if_neg hz]

/-- The ancestor pass is a no-op when no listed ancestor is due earlier
than the new date. -/
theorem dueParentLoop_noop (rec : Nat → DState → Option DState) (d : Date) :
    ∀ l (t : DState), (∀ p ∈ l, Date.blt (t.due p) d = false) →
      dueParentLoop rec d l t = some t := by
  intro l
  induction l with
  | nil => intro t _; rfl
  | cons p ps ih =>
    intro t hall
    rw [dueParentLoop,
      if_neg (by rw [hall p (List.mem_cons_self p ps)]; simp)]
    show dueParentLoop rec d ps t = some t
    exact ih t fun q hq => hall q (List.mem_cons_of_mem _ hq)

/-- The descendant pass is a no-op when no listed descendant is due later
than the new date and no non-fuzzy start date is later either. -/
theorem dueChildLoop_noop (rec : Nat → DState → Option DState) (d : Date) :
    ∀ l (t : DState),
      (∀ c ∈ l, Date.blt d (t.due c) = false ∧
        ((t.start c).is_fuzzy = false → Date.blt d (t.start c) = false)) →
      dueChildLoop rec d l t = some t := by
  intro l
  induction l with
  | nil => intro t _; rfl
  | cons c cs ih =>
    intro t hall
    rw [dueChildLoop,
      if_neg (by rw [(hall c (List.mem_cons_self c cs)).1]; simp)]
    show dueChildLoop rec d cs
        (if (t.start c).is_fuzzy = false ∧ Date.blt d (t.start c)
          then t.set_start_date c d else t) = some t
    rw [if_neg (by
      rintro ⟨h1, h2⟩
      rw [(hall c (List.mem_cons_self c cs)).2 h1] at h2
      cases h2)]
    exact ih t fun q hq => hall q (List.mem_cons_of_mem _ hq)

/-- Preservation of the due-date invariant by a completed `set_due_date`
with a non-fuzzy date. -/
theorem dueInv_preserved_of_nonfuzzy (G : TaskGraph) (hWF : G.WF)
    {d : Date} (hd : d.is_fuzzy = false) {f x : Nat} {s s' : DState}
    (hInv : DueInv G s) (h : set_due_date G f x d s = some s') :
    DueInv G s' := by
  obtain ⟨hW, hM2, hM3, hFZ, ⟨hupx, hdownx⟩, hM45⟩ :=
    set_due_date_post G d hd f x s s' (s.setDue x d).due (fun z => rfl) h
  intro a b ha hchain
  have hchainR : SkipFrom G.parents (s.setDue x d).due (G.parents a) b :=
    skipFrom_fuzz_congr hFZ hchain
  by_cases hach : s'.due a = s.due a
  · by_cases hbch : s'.due b = s.due b
    · by_cases hxf : (s.due x).is_fuzzy
      · have hoff : ∀ z, z ≠ x →
            ((s.setDue x d).due z).is_fuzzy = (s.due z).is_fuzzy := by
          intro z hz
          rw [DState.setDue_due, if_neg hz]
        have hx1 : ((s.setDue x d).due x).is_fuzzy = false := by
          rw [DState.setDue_due, if_pos rfl]; exact hd
        rcases skipFrom_transfer_offx hoff hx1 hchainR with hbx | hchainS
        · exfalso
          rw [hbx] at hbch
          have hxd : s.due x = d := by rw [← hbch]; exact hM2
          rw [hxd, hd] at hxf
          cases hxf
        · have ha' : (s.due a).is_fuzzy = false := by
            rw [← hach]; exact ha
          have hold := hInv a b ha' hchainS
          rw [hach, hbch]; exact hold
      · have hxnf : (s.due x).is_fuzzy = false := Bool.not_eq_true _ ▸ hxf
        have hcong : ∀ z,
            ((s.setDue x d).due z).is_fuzzy = (s.due z).is_fuzzy := by
          intro z
          rw [DState.setDue_due]
          by_cases hz : z = x
          · rw [if_pos hz, hz, hd, hxnf]
          · rw [if_neg hz]
        have hchainS := skipFrom_fuzz_congr hcong hchainR
        have ha' : (s.due a).is_fuzzy = false := by rw [← hach]; exact ha
        have hold := hInv a b ha' hchainS
        rw [hach, hbch]; exact hold
    · have hbd : s'.due b = d := by
        rcases hW.1 b with hh | hh
        · exact absurd hh hbch
        · exact hh
      have hbold : s.due b ≠ d := fun hh => hbch (hbd.trans hh.symm)
      have hpair := hM45 b hbd hbold
      have hanf : ((s.setDue x d).due a).is_fuzzy = false := by
        rw [← hFZ a]; exact ha
      have hdc : DownChain G (s.setDue x d).due b a :=
        upChain_downChain hWF hanf hchainR
      have hle := (hpair.2 a hdc).1
      rw [hbd]; exact hle
  · have had : s'.due a = d := by
      rcases hW.1 a with hh | hh
      · exact absurd hh hach
      · exact hh
    have haold : s.due a ≠ d := fun hh => hach (had.trans hh.symm)
    have hpair := hM45 a had haold
    have hge := hpair.1 b hchainR
    rw [had]; exact hge

/-- Preservation of the due-date invariant by a completed `set_due_date`
with a fuzzy or undefined date: the task only becomes transparent, and the
old constraints compose across it. -/
theorem dueInv_preserved_of_fuzzy (G : TaskGraph) (hAc : G.Acyclic)
    {d : Date} (hd : d.is_fuzzy = true) {f x : Nat} {s s' : DState}
    (hInv : DueInv G s) (h : set_due_date G f x d s = some s') :
    DueInv G s' := by
  obtain ⟨hdue, hstart⟩ := set_due_date_fuzzy_frame G hd h
  have hdz : ∀ z, s'.due z = if z = x then d else s.due z := by
    intro z
    rw [congrFun hdue z, DState.setDue_due]
  intro a b ha hchain
  have hax : a ≠ x := by
    intro hh
    rw [hdz a, if_pos hh, hd] at ha
    cases ha
  have ha' : (s.due a).is_fuzzy = false := by
    rw [hdz a, if_neg hax] at ha; exact ha
  have hbnf : (s'.due b).is_fuzzy = false := skipFrom_endpoint hchain
  have hbx : b ≠ x := by
    intro hh
    rw [hdz b, if_pos hh, hd] at hbnf
    cases hbnf
  rw [hdz a, if_neg hax, hdz b, if_neg hbx]
  by_cases hxf : (s.due x).is_fuzzy
  · have hcong : ∀ z, (s'.due z).is_fuzzy = (s.due z).is_fuzzy := by
      intro z
      rw [hdz z]
      by_cases hz : z = x
      · rw [if_pos hz, hz, hd, hxf]
      · rw [if_neg hz]
    exact hInv a b ha' (skipFrom_fuzz_congr hcong hchain)
  · have hxnf : (s.due x).is_fuzzy = false := Bool.not_eq_true _ ▸ hxf
    have hoff : ∀ z, z ≠ x →
        (s.due z).is_fuzzy = (s'.due z).is_fuzzy := by
      intro z hz
      rw [hdz z, if_neg hz]
    have hx' : (s'.due x).is_fuzzy = true := by
      rw [hdz x, if_pos rfl]; exact hd
    rcases skipFrom_unfuzz hoff hxnf hx' hchain with hS | ⟨hSx, htail⟩
    · exact hInv a b ha' hS
    · rcases skipFrom_unfuzz hoff hxnf hx' htail with hS2 | ⟨hSxx, h2⟩
      · exact Date.ble_trans (hInv a x ha' hSx) (hInv x b hxnf hS2)
      · exact absurd (skipFrom_anc hSxx) (hAc x)

/-- C1.  After any completed `set_due_date` call on a well-formed, acyclic
task tree satisfying the due-date constraint, the constraint still holds:
every task with a non-fuzzy due date is due no later than each nearest
non-fuzzy ancestor reached by skipping fuzzy/undefined tasks transparently
(so, in particular, for every parent-child edge with both endpoints
non-fuzzy).  Second conjunct: the spec's example — grandparent 1 due day 5
(concrete), parent 2 fuzzy, child 3 — setting the child's due date to the
later day 9 pulls the grandparent forward to day 9 and leaves the fuzzy
parent unchanged. -/
theorem c1_due_chain_invariant_preserved (G : TaskGraph) (f x : Nat)
    (d : Date) (s s' : DState) (hWF : G.WF) (hAc : G.Acyclic)
    (hInv : DueInv G s) (h : set_due_date G f x d s = some s') :
    DueInv G s' ∧
    (Date.blt (Date.concrete 5) (Date.concrete 9) = true ∧
      (set_due_date
        (TaskGraph.mk
          (fun a => if a = 3 then [2] else if a = 2 then [1] else [])
          (fun a => if a = 1 then [2] else if a = 2 then [3] else []))
        10 3 (Date.concrete 9)
        ⟨fun z => if z = 1 then Date.concrete 5 else
            if z = 2 then Date.fuzzy 0 else
            if z = 3 then Date.concrete 4 else Date.nodate,
          fun _ => Date.nodate, []⟩).map
        (fun t => (t.due 1, t.due 2, t.due 3))
        = some (Date.concrete 9, Date.fuzzy 0, Date.concrete 9)) := by
  refine ⟨?_, by decide, by decide⟩
  by_cases hdf : d.is_fuzzy
  · exact dueInv_preserved_of_fuzzy G hAc hdf hInv h
  · exact dueInv_preserved_of_nonfuzzy G hWF (Bool.not_eq_true _ ▸ hdf)
      hInv h

theorem c1_due_chain_invariant_preserved_witness :
    ((TaskGraph.mk (fun _ => []) (fun _ => ([] : List Nat))).WF ∧
      (TaskGraph.mk (fun _ => []) (fun _ => ([] : List Nat))).Acyclic ∧
      DueInv (TaskGraph.mk (fun _ => []) (fun _ => ([] : List Nat)))
        ⟨fun _ => Date.nodate, fun _ => Date.nodate, []⟩) ∧
    (set_due_date
      (TaskGraph.mk
        (fun a => if a = 3 then [2] else if a = 2 then [1] else [])
        (fun a => if a = 1 then [2] else if a = 2 then [3] else []))
      10 3 (Date.concrete 9)
      ⟨fun z => if z = 1 then Date.concrete 5 else
          if z = 2 then Date.fuzzy 0 else
          if z = 3 then Date.concrete 4 else Date.nodate,
        fun _ => Date.nodate, []⟩).map
      (fun t => (t.due 1, t.due 2, t.due 3))
      = some (Date.concrete 9, Date.fuzzy 0, Date.concrete 9) := by
  have hWF : (TaskGraph.mk (fun _ => []) (fun _ => ([] : List Nat))).WF :=
    by intro a p; simp
  have hAc :
      (TaskGraph.mk (fun _ => []) (fun _ => ([] : List Nat))).Acyclic :=
    fun z hz => ancFrom_nil hz
  have hInv : DueInv (TaskGraph.mk (fun _ => []) (fun _ => ([] : List Nat)))
      ⟨fun _ => Date.nodate, fun _ => Date.nodate, []⟩ :=
    fun a b _ hc => absurd hc skipFrom_nil
  refine ⟨⟨hWF, hAc, hInv⟩, ?_⟩
  rcases hrun : set_due_date
      (TaskGraph.mk (fun _ => []) (fun _ => ([] : List Nat))) 2 1
      (Date.concrete 3)
      ⟨fun _ => Date.nodate, fun _ => Date.nodate, []⟩ with _ | t'
  · exact Option.noConfusion hrun
  · exact (c1_due_chain_invariant_preserved
      (TaskGraph.mk (fun _ => []) (fun _ => ([] : List Nat))) 2 1
      (Date.concrete 3)
      ⟨fun _ => Date.nodate, fun _ => Date.nodate, []⟩ t'
      hWF hAc hInv hrun).2.2

/-- C9.  Calling `set_due_date` again with the same date immediately after
a completed call is a no-op: the stored due date is already the new date,
every repair the ancestor/descendant passes would make is already in
place, and — the stored date being unchanged — the recursive re-sync of
the subtree is skipped, so the call returns the state unchanged and in
particular appends no sync (modification notification) to the trace. -/
theorem c9_repeat_set_due_date_skips_resync (G : TaskGraph) (f x : Nat)
    (d : Date) (s s' : DState)
    (h : set_due_date G (f+1) x d s = some s') :
    set_due_date G (f+1) x d s' = some s' ∧
    (set_due_date G (f+1) x d s').map DState.syncs = some s'.syncs := by
  have main : set_due_date G (f+1) x d s' = some s' := by
    by_cases hdf : d.is_fuzzy
    · have hfr := set_due_date_fuzzy_frame G hdf h
      have hM2 : s'.due x = d := by
        rw [congrFun hfr.1 x, DState.setDue_due, if_pos rfl]
      rw [set_due_date, if_pos hdf]
      refine Option.bind_eq_some.mpr ⟨s'.setDue x d, rfl, ?_⟩
      dsimp only []
      rw [DState.setDue_self hM2]
      rw [if_neg (fun hk => hk hM2)]
    · have hd' : d.is_fuzzy = false := Bool.not_eq_true _ ▸ hdf
      have hh := h
      rw [set_due_date] at hh
      rw [if_neg (by rw [hd']; simp : ¬ d.is_fuzzy = true)] at hh
      obtain ⟨P, hP, h2⟩ := Option.bind_eq_some.mp hh
      obtain ⟨sa, hPL, h3⟩ := Option.bind_eq_some.mp h2
      obtain ⟨C, hC, _⟩ := Option.bind_eq_some.mp h3
      obtain ⟨hW, hM2, hM3, hFZ, ⟨hupx, hdownx⟩, hM45⟩ :=
        set_due_date_post G d hd' (f+1) x s s' (s.setDue x d).due
          (fun z => rfl) h
      have hrec : ∀ p t t', (((s.setDue x d).due p)).is_fuzzy = false →
          (∀ z, ((t.due z).is_fuzzy = (((s.setDue x d).due z)).is_fuzzy)) →
          set_due_date G f p d t = some t' →
          DuePost G (s.setDue x d).due p d t t' := by
        intro p t t' hpnf htfz hcall
        refine set_due_date_post G d hd' f p t t' (s.setDue x d).due ?_
          hcall
        intro z
        rw [DState.setDue_due]
        by_cases hz : z = p
        · rw [if_pos hz, hz, hd', hpnf]
        · rw [if_neg hz]; exact htfz z
      have hPmem : ∀ p ∈ P, (((s.setDue x d).due p)).is_fuzzy = false :=
        fun p hp => (skipFuzzy_sound f _ _ hP p hp).1
      have hfza := (dueParentLoop_post G (s.setDue x d).due d _ hrec P
        (s.setDue x d) sa hPmem (fun z => rfl) hPL).2.2.1
      rw [set_due_date]
      rw [if_neg (by rw [hd']; simp : ¬ d.is_fuzzy = true)]
      rw [DState.setDue_self hM2]
      refine Option.bind_eq_some.mpr ⟨P, ?_, ?_⟩
      · rw [skipFuzzy_fuzz_congr hFZ f (G.parents x)]
        exact hP
      · dsimp only []
        refine Option.bind_eq_some.mpr ⟨s', ?_, ?_⟩
        · refine dueParentLoop_noop _ d P s' ?_
          intro p hp
          exact hupx p (skipFuzzy_sound f _ _ hP p hp).2
        · dsimp only []
          refine Option.bind_eq_some.mpr ⟨C, ?_, ?_⟩
          · rw [skipFuzzy_fuzz_congr hFZ f (G.children x),
              ← skipFuzzy_fuzz_congr hfza f (G.children x)]
            exact hC
          · dsimp only []
            refine Option.bind_eq_some.mpr ⟨s', ?_, ?_⟩
            · refine dueChildLoop_noop _ d C s' ?_
              intro c hc
              exact hdownx c (skipFrom_fuzz_congr hfza
                (skipFuzzy_sound f _ _ hC c hc).2)
            · dsimp only []
              rw [if_neg (fun hk => hk hM2)]
  exact ⟨main, by rw [main]; rfl⟩

theorem c9_repeat_set_due_date_skips_resync_witness :
    ((set_due_date (TaskGraph.mk (fun _ => []) (fun _ => ([] : List Nat)))
        2 1 (Date.concrete 3)
        ⟨fun _ => Date.nodate, fun _ => Date.nodate, []⟩).bind
      (fun t => set_due_date
        (TaskGraph.mk (fun _ => []) (fun _ => ([] : List Nat)))
        2 1 (Date.concrete 3) t)).map DState.syncs
      = some [1] := by
  have hv : (set_due_date
      (TaskGraph.mk (fun _ => []) (fun _ => ([] : List Nat))) 2 1
      (Date.concrete 3)
      ⟨fun _ => Date.nodate, fun _ => Date.nodate, []⟩).map DState.syncs
      = some [1] := by decide
  rcases hrun : set_due_date
      (TaskGraph.mk (fun _ => []) (fun _ => ([] : List Nat))) 2 1
      (Date.concrete 3)
      ⟨fun _ => Date.nodate, fun _ => Date.nodate, []⟩ with _ | t'
  · exact Option.noConfusion hrun
  · have hres := c9_repeat_set_due_date_skips_resync
      (TaskGraph.mk (fun _ => []) (fun _ => ([] : List Nat))) 1 1
      (Date.concrete 3)
      ⟨fun _ => Date.nodate, fun _ => Date.nodate, []⟩ t' hrun
    show (set_due_date (TaskGraph.mk (fun _ => []) (fun _ => ([] : List Nat)))
        2 1 (Date.concrete 3) t').map DState.syncs = some [1]
    rw [hres.1]
    exact (congrArg (Option.map DState.syncs) hrun).symm.trans hv

end GTG
